import Mathlib

/-!
# QUI process supervision: dispatch queue, process status, monitor, engine discovery

A shallow embedding of `Qui::Process::Queue`, of the status of `Process` and
`Monitored`, of `Timed::formattedTime`, of the removal and stop slots of
`Monitor`, of `QChem::checkForErrors` and `QChem::renameFchkFile`
(`src/Process.h`, `src/Process.C`), of `QChem::kill`, `QChem::pid` and
`KillProcess` (`src/ProcessQChemKill.C`), of the ancestry climb of `src/getpids.C` and of `MoleculeSection::read` and
`dump` (`src/MoleculeSection.C`), followed by the properties proved about them.

Modelling conventions:

* a `Process*` is a handle, identified by a natural number (pointer identity);
* `std::queue<Process*>` is a `List Handle` whose head is `front()`; `push`
  appends at the back and `pop` drops the head;
* the C++ `int` counters are integers.  The running count only moves by one per
  call and stays between minus the number of completion notifications and
  `m_maxProcesses`, so no wrap-around is reachable below `2^31` notifications;
* the calls `front()->start()` made by the queue are recorded in the log
  `started`, oldest first, and the handles started and not yet reported finished
  are kept in `running`.  Both are observations of the queue's effects, they are
  never read by the code;
* what the code reads from outside is an argument: the `QProcess::state()` of
  a handle, the reading of the clock, the lines of the output file, the output
  of `/bin/ps`;
* a `QString` that is only stored or compared is a `String`; the text that
  `QChem::pid` takes apart is a `List Char`;
* a file is identified by the components of its path from the root, and the
  files that exist are a list of them; a command that is run is recorded by
  its argument list.
-/

set_option linter.dupNamespace false

namespace Qui
namespace Process

/-- A process handle: the identity of a `Process*`. -/
abbrev Handle := Nat

/-- The lifecycle tag `Status::ID` of `Process.h`. -/
inductive Status where
  | NotRunning | Starting | Running | Queued | Crashed | Killed
  | Error | Finished | Unknown
  deriving DecidableEq, Repr

/-- The three values of `QProcess::ProcessState`, as returned by `state()`. -/
inductive ProcessState where
  | NotRunning | Starting | Running
  deriving DecidableEq, Repr

/-- The two values of `QProcess::ExitStatus`. -/
inductive ExitStatus where
  | NormalExit | CrashExit
  deriving DecidableEq, Repr

/-! ## Process -/

/-- The members of `class Process` that `status()` reads, together with the
state of the underlying `QProcess`. -/
structure Process where
  /-- Value of `QProcess::state()`. -/
  state : ProcessState
  /-- Member `m_status`. -/
  m_status : Status
  /-- Member `m_started`. -/
  m_started : Bool
  deriving DecidableEq, Repr

/-- The constructor `Process::Process`: `m_status(Status::Unknown)`,
`m_started(false)`; a new `QProcess` is not running. -/
def Process.new : Process :=
  { state := ProcessState.NotRunning, m_status := Status.Unknown, m_started := false }

/-- `Process::status()`. -/
def Process.status (p : Process) : Status :=
  if !p.m_started then Status.Queued
  else if p.state = ProcessState.Starting then Status.Starting
  else if p.state = ProcessState.Running then Status.Running
  else p.m_status

/-- `Process::start()`: it only forwards to `QProcess::start(m_program, m_arguments)`,
which moves a `QProcess` that is not running to the `Starting` state and does
nothing to one that is already active.  No member of `Process` is written. -/
def Process.start (p : Process) : Process :=
  if p.state = ProcessState.NotRunning then { p with state := ProcessState.Starting }
  else p

/-- The members of `class Monitored` that take part in the status: the
inherited `Process` members, `m_error` and `m_exitCode`. -/
structure Monitored extends Process where
  /-- Member `m_error`. -/
  m_error : String
  /-- Member `m_exitCode`. -/
  m_exitCode : Int
  deriving DecidableEq, Repr

/-- The constructor `Monitored::Monitored`: the `Process` constructor and
`m_error("")`.  `m_exitCode` is not initialised, its first value is arbitrary. -/
def Monitored.new (exitCode : Int) : Monitored :=
  { toProcess := Process.new, m_error := "", m_exitCode := exitCode }

/-- The `start()` a `Monitored` inherits (`Timed::start`): clock bookkeeping
around `Process::start()`. -/
def Monitored.start (m : Monitored) : Monitored :=
  { m with toProcess := m.toProcess.start }

/-- `Monitored::processStarted()`, the slot connected to the `started()` signal:
`m_started = true`. -/
def Monitored.processStarted (m : Monitored) : Monitored :=
  { m with m_started := true }

/-- A successful launch as seen from the `QProcess`: the state becomes
`Running`, then `started()` is emitted and runs `processStarted`. -/
def Monitored.osStarted (m : Monitored) : Monitored :=
  Monitored.processStarted { m with state := ProcessState.Running }

/-! ## Queue -/

/-- The members of `class Queue`, with the two observation fields. -/
structure Queue where
  /-- Member `m_processQueue`, front first. -/
  m_processQueue : List Handle
  /-- Member `m_nProcesses`. -/
  m_nProcesses : Int
  /-- Member `m_maxProcesses`. -/
  m_maxProcesses : Int
  /-- Log of the `start()` calls issued by `runQueue`, oldest first. -/
  started : List Handle
  /-- Handles started by the queue whose completion has not been notified. -/
  running : List Handle
  deriving DecidableEq, Repr

/-- The constructor `Queue::Queue(parent, maxProcesses)`: `m_nProcesses(0)`,
an empty `std::queue`. -/
def Queue.new (maxProcesses : Int) : Queue :=
  { m_processQueue := [], m_nProcesses := 0, m_maxProcesses := maxProcesses,
    started := [], running := [] }

/-- The `while` loop of `Queue::runQueue`, by recursion on the pending list: each
pass starts the front, pops it and increments the running count. -/
def runQueueLoop (maxProcesses : Int) :
    List Handle → Int → List Handle → List Handle → Queue
  | [], n, st, rn =>
      { m_processQueue := [], m_nProcesses := n, m_maxProcesses := maxProcesses,
        started := st, running := rn }
  | p :: rest, n, st, rn =>
      if n < maxProcesses then
        runQueueLoop maxProcesses rest (n + 1) (st ++ [p]) (rn ++ [p])
      else
        { m_processQueue := p :: rest, m_nProcesses := n,
          m_maxProcesses := maxProcesses, started := st, running := rn }

/-- `Queue::runQueue()`. -/
def Queue.runQueue (q : Queue) : Queue :=
  runQueueLoop q.m_maxProcesses q.m_processQueue q.m_nProcesses q.started q.running

/-- `Queue::submit(process)`: `push` then `runQueue()`.  (The `connect` call
subscribes the queue to the handle's `finished` signal.) -/
def Queue.submit (q : Queue) (process : Handle) : Queue :=
  Queue.runQueue { q with m_processQueue := q.m_processQueue ++ [process] }

/-- `Queue::processFinished(int, QProcess::ExitStatus)`: `--m_nProcesses` then
`runQueue()`.  Both arguments are ignored by the code; `sender` is the handle
whose `finished` signal is delivered and only updates the observation
`running`. -/
def Queue.processFinished (q : Queue) (sender : Handle) (_exitCode : Int)
    (_exitStatus : ExitStatus) : Queue :=
  Queue.runQueue
    { q with m_nProcesses := q.m_nProcesses - 1, running := q.running.erase sender }

/-- The `for` loop of `Queue::remove`:
`for (i = 0; i < m_processQueue.size(); ++i) { p = front(); pop(); if (p != process) push(p); }`.
The bound `size()` is read again on every pass.  The first argument bounds the
number of passes; `removeLoop_exit` shows that the loop always leaves through
its own condition when it is at least `size() - i`.  The counter `i` is an
`unsigned int`, which cannot wrap below `2^32` pending handles. -/
def removeLoop (process : Handle) : Nat → Nat → List Handle → Nat × List Handle
  | 0, i, q => (i, q)
  | fuel + 1, i, q =>
      if i < q.length then
        match q with
        | [] => (i, q)
        | p :: rest =>
            removeLoop process fuel (i + 1) (if p ≠ process then rest ++ [p] else rest)
      else (i, q)

/-- `Queue::remove(process)`. -/
def Queue.remove (q : Queue) (process : Handle) : Queue :=
  { q with m_processQueue :=
      (removeLoop process q.m_processQueue.length 0 q.m_processQueue).2 }

/-- The calls the queue receives. -/
inductive Op where
  | submit (process : Handle)
  | finished (sender : Handle) (exitCode : Int) (exitStatus : ExitStatus)
  | remove (process : Handle)
  deriving DecidableEq, Repr

/-- One call on the queue. -/
def Queue.step (q : Queue) : Op → Queue
  | Op.submit p => q.submit p
  | Op.finished s c e => q.processFinished s c e
  | Op.remove p => q.remove p

/-- A sequence of calls, performed from left to right. -/
def Queue.run (q : Queue) (ops : List Op) : Queue :=
  ops.foldl Queue.step q

/-- The handles submitted by a sequence of calls, in submission order. -/
def submitted : List Op → List Handle
  | [] => []
  | Op.submit p :: ops => p :: submitted ops
  | _ :: ops => submitted ops

/-- The number of completion notifications in a sequence of calls. -/
def completions : List Op → Nat
  | [] => 0
  | Op.finished _ _ _ :: ops => completions ops + 1
  | _ :: ops => completions ops

/-- No call of the sequence is a `remove`. -/
def noRemove : List Op → Bool
  | [] => true
  | Op.remove _ :: _ => false
  | _ :: ops => noRemove ops

/-- The bookkeeping invariant behind the separation of pending and running
handles: no handle occurs twice in the start log followed by the pending list,
all of them were submitted, and every running handle is in the start log. -/
def Separated (q : Queue) (subs : List Handle) : Prop :=
  (q.started ++ q.m_processQueue).Nodup ∧
  (∀ x ∈ q.started ++ q.m_processQueue, x ∈ subs) ∧
  (∀ x ∈ q.running, x ∈ q.started)

/-! ## Monitored: kill and exit -/

/-- `Monitored::kill()`: `Process::kill()`, then `m_status = Status::Killed`.
`Process::kill()` forwards to `QProcess::kill()`, a request to the operating
system that does nothing when no process is running and does not change
`state()` by itself; the assignment is unconditional. -/
def Monitored.kill (m : Monitored) : Monitored :=
  { m with m_status := Status.Killed }

/-- `Monitored::processFinished(exitCode, exitStatus)`, the slot connected to
`finished(int, QProcess::ExitStatus)`. -/
def Monitored.processFinished (m : Monitored) (exitCode : Int) (exitStatus : ExitStatus) :
    Monitored :=
  { m with
    m_status :=
      if m.m_status = Status.Killed then m.m_status
      else if exitStatus = ExitStatus.CrashExit then Status.Crashed
      else Status.Finished
    m_exitCode := exitCode }

/-- The exit of the program as seen from the `QProcess`: the state becomes
`NotRunning`, then `finished(exitCode, exitStatus)` is emitted and runs
`processFinished`. -/
def Monitored.osFinished (m : Monitored) (exitCode : Int) (exitStatus : ExitStatus) :
    Monitored :=
  Monitored.processFinished { m with state := ProcessState.NotRunning } exitCode exitStatus

/-- What can happen to a `Monitored` process: the calls `start()` and `kill()`
and the two notifications of the operating system. -/
inductive Event where
  | start
  | osStarted
  | kill
  | osFinished (exitCode : Int) (exitStatus : ExitStatus)
  deriving DecidableEq, Repr

/-- The effect of one event. -/
def Monitored.apply (m : Monitored) : Event → Monitored
  | Event.start => m.start
  | Event.osStarted => m.osStarted
  | Event.kill => m.kill
  | Event.osFinished c e => m.osFinished c e

/-- The notifications a `QProcess` can deliver in its current state: `started()`
only while it is starting, `finished()` only while a program is associated.  The
two calls are always possible. -/
def Monitored.feasible (m : Monitored) : Event → Bool
  | Event.osStarted => decide (m.state = ProcessState.Starting)
  | Event.osFinished _ _ => decide (m.state ≠ ProcessState.NotRunning)
  | _ => true

/-- Every notification of the sequence is deliverable when it occurs. -/
def Monitored.feasibleRun (m : Monitored) : List Event → Bool
  | [] => true
  | e :: es => m.feasible e && Monitored.feasibleRun (m.apply e) es

/-- The number of `start()` calls in a sequence of events. -/
def startCalls : List Event → Nat
  | [] => 0
  | Event.start :: es => startCalls es + 1
  | _ :: es => startCalls es

/-- The values of `status()` observed along a sequence of events: before the
first event and after each event. -/
def Monitored.statusTrace (m : Monitored) : List Event → List Status
  | [] => [m.status]
  | e :: es => m.status :: Monitored.statusTrace (m.apply e) es

/-- The terminal values of the lifecycle. -/
def Status.isTerminal : Status → Bool
  | Status.Finished | Status.Crashed | Status.Killed | Status.Error => true
  | _ => false

/-- A measure of progress along the lifecycle, used to compare two observed
values of `status()`. -/
def Status.rank : Status → Nat
  | Status.Queued => 0
  | Status.Starting => 1
  | Status.Running => 2
  | Status.Finished => 3
  | Status.Crashed => 3
  | Status.Error => 3
  | Status.Killed => 4
  | Status.NotRunning => 5
  | Status.Unknown => 5

/-- One value of `status()` may follow another: it is the same value or a value
further along the lifecycle. -/
def Status.Forward (s t : Status) : Prop :=
  s = t ∨ s.rank < t.rank

/-- What holds of a single-use `Monitored` process at any time; `used` tells
whether `start()` has been called. -/
def Monitored.Lifecycle (m : Monitored) (used : Bool) : Prop :=
  (used = false → m.state = ProcessState.NotRunning ∧ m.m_started = false) ∧
  (m.m_started = true → m.state ≠ ProcessState.Starting) ∧
  (m.m_started = true → m.state = ProcessState.NotRunning →
    m.m_status = Status.Finished ∨ m.m_status = Status.Crashed ∨ m.m_status = Status.Killed)

/-! ## Timed -/

/-- `QString::number(int)`: the decimal digits, after a minus sign for a
negative number. -/
def number : Int → String
  | Int.ofNat n => Nat.repr n
  | Int.negSucc n => "-" ++ Nat.repr (n + 1)

/-- A field of the `QTime` format `hh`, `mm` or `ss`: two digits, with a leading
zero below ten. -/
def twoDigits (n : Nat) : String :=
  if n < 10 then "0" ++ Nat.repr n else Nat.repr n

/-- `QTime(h, m, s).toString("hh:mm:ss")`.  A `QTime` built from fields outside
`0..23`, `0..59`, `0..59` is invalid and its `toString` is the empty string. -/
def QTime.toString (h m s : Int) : String :=
  if 0 ≤ h ∧ h < 24 ∧ 0 ≤ m ∧ m < 60 ∧ 0 ≤ s ∧ s < 60 then
    twoDigits h.toNat ++ ":" ++ twoDigits m.toNat ++ ":" ++ twoDigits s.toNat
  else ""

/-- The members `class Timed` adds to `Process` that `formattedTime()` reads. -/
structure Timed extends Process where
  /-- Member `m_days`. -/
  m_days : Int
  /-- Member `m_elapsedTime`, in milliseconds. -/
  m_elapsedTime : Int
  deriving DecidableEq, Repr

/-- The constructor `Timed::Timed`: `m_days(0)`, `m_elapsedTime(0)`. -/
def Timed.new : Timed :=
  { toProcess := Process.new, m_days := 0, m_elapsedTime := 0 }

/-- The slot `Timed::anotherDay()`, run by the 24-hour timer: `++m_days`. -/
def Timed.anotherDay (t : Timed) : Timed :=
  { t with m_days := t.m_days + 1 }

/-- The slot `Timed::finish(int, QProcess::ExitStatus)`:
`m_elapsedTime = m_startTime.elapsed()`; `elapsed` is what the clock returns. -/
def Timed.finish (t : Timed) (elapsed : Int) : Timed :=
  { t with m_elapsedTime := elapsed }

/-- `Timed::formattedTime()`; `elapsed` is what `m_startTime.elapsed()` would
return at the time of the call.  The C++ `/` and `%` on `int` truncate. -/
def Timed.formattedTime (t : Timed) (elapsed : Int) : String :=
  let time0 := if t.state = ProcessState.Running then elapsed else t.m_elapsedTime
  let time1 := time0.tdiv 1000
  let secs := time1.tmod 60
  let time2 := time1.tdiv 60
  let mins := time2.tmod 60
  let hours := time2.tdiv 60
  (if t.m_days > 0 then number t.m_days ++ " days " else "")
    ++ QTime.toString hours mins secs

/-- The format of the specification for a frozen snapshot of `e` milliseconds
and a day counter `d`: the optional `"<d> days "`, emitted exactly when
`d >= 1`, then `HH:MM:SS` with `HH = e/3600000`, `MM = (e/60000) mod 60` and
`SS = (e/1000) mod 60`, each on two digits. -/
def formattedTimeSpec (d : Int) (e : Nat) : String :=
  (if 1 ≤ d then number d ++ " days " else "")
    ++ (twoDigits (e / 3600000) ++ ":" ++ twoDigits (e / 60000 % 60) ++ ":"
        ++ twoDigits (e / 1000 % 60))

/-! ## Monitor -/

/-- The key of a process in the monitor, the text of column 0 of its row:
`QString::number(qulonglong(process))`. -/
def keyOf (process : Handle) : String :=
  Nat.repr process

/-- The part of `class Monitor` behind the removal of a process: the map
`m_processList`, the `processRemoved` signals emitted and the warnings shown,
both oldest first.  The table widget is left out. -/
structure Monitor where
  /-- Member `m_processList`, a `std::map<QString, Monitored*>`, as its entries. -/
  m_processList : List (String × Handle)
  /-- The arguments of the emitted `processRemoved(Process*)` signals. -/
  removed : List Handle
  /-- The texts of the `QMessageBox::warning` boxes shown. -/
  warnings : List String
  deriving DecidableEq, Repr

/-- `m_processList.find(key)`, with `none` for `end()`. -/
def Monitor.find (mon : Monitor) (key : String) : Option Handle :=
  mon.m_processList.lookup key

/-- `m_processList.erase(iter)` for the iterator at `key`. -/
def Monitor.erase (mon : Monitor) (key : String) : Monitor :=
  { mon with m_processList := mon.m_processList.filter (fun e => e.1 ≠ key) }

/-- The map part of `Monitor::addProcess(process)`:
`m_processList[QString::number(qulonglong(process))] = process`. -/
def Monitor.addProcess (mon : Monitor) (process : Handle) : Monitor :=
  { mon with m_processList :=
      (keyOf process, process) :: mon.m_processList.filter (fun e => e.1 ≠ keyOf process) }

/-- `Monitor::findSelectedProcess()`: `selected` is the key shown in the
selected row of the table, `none` when no row is selected. -/
def Monitor.findSelectedProcess (mon : Monitor) (selected : Option String) :
    Option (String × Handle) :=
  match selected with
  | none => none
  | some key =>
      match mon.find key with
      | none => none
      | some process => some (key, process)

/-- `Monitor::on_removeProcessButton_clicked(bool)`; `state` gives the
`QProcess::state()` of each handle. -/
def Monitor.on_removeProcessButton_clicked (mon : Monitor) (selected : Option String)
    (state : Handle → ProcessState) : Monitor :=
  match mon.findSelectedProcess selected with
  | none => mon
  | some (key, process) =>
      if state process = ProcessState.NotRunning then
        Monitor.erase { mon with removed := mon.removed ++ [process] } key
      else
        { mon with warnings :=
            mon.warnings ++ ["Cannot remove active processes from the process list."] }

/-- `Monitor::on_stopProcessButton_clicked(bool)`; `processes` gives the
`Monitored` object behind each handle and the result gives these objects after
the click.  The call `iter->second->kill()` goes through the virtual
`Process::kill()` and runs `Monitored::kill()`, the last class to define it. -/
def Monitor.on_stopProcessButton_clicked (mon : Monitor) (selected : Option String)
    (processes : Handle → Monitored) : Handle → Monitored :=
  match mon.findSelectedProcess selected with
  | none => processes
  | some (_, process) =>
      if (processes process).state ≠ ProcessState.NotRunning then
        fun h => if h = process then (processes process).kill else processes h
      else processes

/-! ## QChem: post-processing of the output -/

/-- `QString::contains(needle)` on character lists. -/
def containsChars (needle : List Char) : List Char → Bool
  | [] => needle.isPrefixOf []
  | c :: cs => needle.isPrefixOf (c :: cs) || containsChars needle cs

/-- A line matches the wildcard pattern `*Q-Chem fatal error*` exactly: it
contains the marker. -/
def isFatalLine (line : String) : Bool :=
  containsChars "Q-Chem fatal error".data line.data

/-- `lines.indexOf(rx)`: the index of the first matching line, `-1` without one. -/
def indexOfFatal : List String → Int
  | [] => -1
  | line :: rest =>
      if isFatalLine line then 0
      else if indexOfFatal rest < 0 then -1
      else indexOfFatal rest + 1

/-- `QChem::checkForErrors()`; `lines` is what `ReadFileToList` returns for the
output file. -/
def QChem.checkForErrors (m : Monitored) (lines : List String) : Monitored :=
  let error := indexOfFatal lines
  if 0 ≤ error ∧ (lines.length : Int) > error + 2 then
    { m with m_error := lines.getD (error + 2).toNat "", m_status := Status.Error }
  else m

/-- The exit of a `QChem` job: the `finished` signal runs the slots in the order
of their connection, `Monitored::processFinished` and then `QChem::cleanUp`,
which calls `checkForErrors()` and `renameFchkFile()`; the latter renames a
file and does not write the status or the error message. -/
def QChem.osFinished (m : Monitored) (exitCode : Int) (exitStatus : ExitStatus)
    (lines : List String) : Monitored :=
  QChem.checkForErrors (m.osFinished exitCode exitStatus) lines

/-- The map part of the constructor `Monitor::Monitor(parent, processList, ...)`:
`addProcess` for each process of the list. -/
def Monitor.new (processList : List Handle) : Monitor :=
  processList.foldl Monitor.addProcess { m_processList := [], removed := [], warnings := [] }

/-! ## QChem: discovery of the engine process -/

/-- `QChar::isSpace()`, which also is what `\s` matches in a `QRegExp`: the
characters 9 to 13 and the Unicode separators. -/
def isSpace (c : Char) : Bool :=
  [9, 10, 11, 12, 13, 32, 160, 5760, 6158, 8192, 8193, 8194, 8195, 8196, 8197, 8198, 8199,
    8200, 8201, 8202, 8232, 8233, 8239, 8287, 12288].contains c.toNat

/-- `QString::trimmed()`: white space removed from both ends. -/
def trimmed (s : List Char) : List Char :=
  ((s.dropWhile isSpace).reverse.dropWhile isSpace).reverse

/-- Splitting at white space, with the characters of the token being read in
`cur`, last first. -/
def splitSpaces : List Char → List Char → List (List Char)
  | [], cur => if cur.isEmpty then [] else [cur.reverse]
  | c :: cs, cur =>
      if isSpace c then
        if cur.isEmpty then splitSpaces cs [] else cur.reverse :: splitSpaces cs []
      else splitSpaces cs (c :: cur)

/-- `line.split(QRegExp("\\s+"), QString::SkipEmptyParts)`: the maximal runs of
characters that are not white space. -/
def tokens (line : List Char) : List (List Char) :=
  splitSpaces line []

/-- `psOutput.split(QRegExp("\\n"))`: the parts between line feeds, empty parts
included. -/
def splitLines : List Char → List (List Char)
  | [] => [[]]
  | c :: cs =>
      if c = Char.ofNat 10 then [] :: splitLines cs
      else
        match splitLines cs with
        | [] => [[c]]
        | l :: ls => (c :: l) :: ls

/-- The value of a decimal digit. -/
def digitValue (c : Char) : Option Nat :=
  if 48 ≤ c.toNat ∧ c.toNat ≤ 57 then some (c.toNat - 48) else none

/-- The number written by a list of decimal digits, read after `acc`; `none`
when a character is not a digit. -/
def parseDigits : List Char → Nat → Option Nat
  | [], acc => some acc
  | c :: cs, acc =>
      match digitValue c with
      | none => none
      | some d => parseDigits cs (acc * 10 + d)

/-- `QString::toInt()` in base 10 on a token without white space: an optional
sign and at least one digit, within the range of `int`; 0 when the conversion
fails. -/
def toInt (s : List Char) : Int :=
  match s with
  | [] => 0
  | c :: cs =>
      if c = Char.ofNat 45 then
        match cs, parseDigits cs 0 with
        | _ :: _, some v => if v ≤ 2147483648 then -(v : Int) else 0
        | _, _ => 0
      else if c = Char.ofNat 43 then
        match cs, parseDigits cs 0 with
        | _ :: _, some v => if v ≤ 2147483647 then (v : Int) else 0
        | _, _ => 0
      else
        match parseDigits (c :: cs) 0 with
        | some v => if v ≤ 2147483647 then (v : Int) else 0
        | none => 0

/-- The test `lines[i].startsWith(QString::number(id) + " ")`: the line is that
of a child of process `id`. -/
def isChildLine (line : List Char) (id : Int) : Bool :=
  ((number id).data ++ [Char.ofNat 32]).isPrefixOf line

/-- The value `tokens[1].toInt()` read from a line: its pid field. -/
def pidField (line : List Char) : Int :=
  toInt ((tokens line).getD 1 [])

/-- The test `lines[i].contains("qcprog.exe")`. -/
def isEngineLine (line : List Char) : Bool :=
  containsChars "qcprog.exe".data line

/-- The `for` loop of `QChem::pid()` over the lines from the current one on; the
result is `found` and `id` at the end of the pass. -/
def scanLines : List (List Char) → Int → Bool × Int
  | [], id => (false, id)
  | line :: rest, id =>
      if isChildLine line id then
        if isEngineLine line then (true, pidField line)
        else scanLines rest (pidField line)
      else scanLines rest id

/-- The `while (!found && count < 12)` loop of `QChem::pid()`; the result is
`found`, `id` and `count` at its exit.  The first argument bounds the number of
passes; `pidWhile_exit` shows that with 12 the loop leaves through its own
condition. -/
def pidWhile (lines : List (List Char)) : Nat → Bool → Int → Nat → Bool × Int × Nat
  | 0, found, id, count => (found, id, count)
  | fuel + 1, found, id, count =>
      if found = false ∧ count < 12 then
        pidWhile lines fuel (scanLines lines id).1 (scanLines lines id).2 (count + 1)
      else (found, id, count)

/-- The lines of the output of `ps`, each trimmed. -/
def listing (psOutput : List Char) : List (List Char) :=
  (splitLines psOutput).map trimmed

/-- The walk of `QChem::pid()`: `psOutput` is the output of
`/bin/ps xww -o ppid,pid,command`, `none` when `waitForFinished(5000)` fails;
`id` is `QProcess::pid()`.  The result is `found`, `id` and the number of
passes made over the listing. -/
def QChem.pidWalk (psOutput : Option (List Char)) (id : Int) : Bool × Int × Nat :=
  match psOutput with
  | none => (false, id, 0)
  | some out => pidWhile (listing out) 12 false id 0

/-- `QChem::pid()`: `found ? id : 0`. -/
def QChem.pid (psOutput : Option (List Char)) (id : Int) : Int :=
  if (QChem.pidWalk psOutput id).1 = true then (QChem.pidWalk psOutput id).2.1 else 0

/-- A parent-to-child link of a listing: a line that starts with the parent's
id and a blank and whose pid field is the child. -/
def Link (lines : List (List Char)) (parent child : Int) : Prop :=
  ∃ line ∈ lines, isChildLine line parent = true ∧ pidField line = child

/-- What the walk of `QChem::pid()` has established when it stands at `id`,
having started from `id0`: `id` is reached from `id0` by links of the listing,
and when `found` is set `id` is the pid field of an engine line that is itself
a link from a process reached from `id0`. -/
def Walked (lines : List (List Char)) (id0 : Int) (found : Bool) (id : Int) : Prop :=
  Relation.ReflTransGen (Link lines) id0 id ∧
  (found = true → ∃ line ∈ lines, isEngineLine line = true ∧ pidField line = id ∧
    ∃ parent, Relation.ReflTransGen (Link lines) id0 parent ∧ isChildLine line parent = true)

/-- An output of `/bin/ps xww -o ppid,pid,command`, used as a concrete input:
the wrapper script 100, its child 200 and the engine 300 below it. -/
def psExample : List Char :=
  ("  PPID   PID COMMAND\n    1   100 /bin/sh runqchem in\n"
    ++ "  100   200 /bin/csh qchem in\n  200   300 /opt/qcprog.exe in\n").data

/-- Every completion notification of the sequence comes from a handle that the
queue has started and that has not been reported finished yet. -/
def Queue.notifiedOnce (q : Queue) : List Op → Bool
  | [] => true
  | Op.finished s c e :: ops =>
      decide (s ∈ q.running) && Queue.notifiedOnce (q.processFinished s c e) ops
  | Op.submit p :: ops => Queue.notifiedOnce (q.submit p) ops
  | Op.remove p :: ops => Queue.notifiedOnce (q.remove p) ops

/-! ## QChem: kill and the auxiliary file -/

/-- The value of `SIGTERM` in `<signal.h>`, the default of the parameter `signal`
of `KillProcess`. -/
def SIGTERM : Int := 15

/-- `KillProcess(pid, signal)` of `ProcessQChemKill.C`: it runs `/bin/kill` with
the two arguments `QString::number(signal)` and `QString::number(pid)`, in this
order and with nothing before the signal number.  `finished` is the result of
`assassin.waitForFinished(5000)`.  The result is the value returned and the
argument list of the command. -/
def KillProcess (pid signal : Int) (finished : Bool) : Bool × List String :=
  (finished, [number signal, number pid])

/-- What a call of `QChem::kill()` does outside the object: whether the
confirmation box was shown, the argument lists of the runs of `/bin/kill` and
the warnings shown. -/
structure KillReport where
  /-- The box `Kill Job?` was shown. -/
  asked : Bool
  /-- The argument list of each run of `/bin/kill`, oldest first. -/
  commands : List (List String)
  /-- The texts of the `Kill Job Failed` warning boxes. -/
  warnings : List String
  deriving DecidableEq, Repr

/-- The function `QChem::kill()` as `ProcessQChemKill.C` writes it, with the
`QChem::pid()` and `KillProcess` of the branch for systems other than Windows.
`class QChem` in `Process.h` declares no `kill()`: a `kill()` on a job reached
through the monitor runs `Monitored::kill()`, and this definition says what the
body written in `ProcessQChemKill.C` does when it is run.  `confirmed` is the
answer to the question box (not `Cancel`), `psOutput` and `childPid` are what
`QChem::pid()` reads, `finished` is whether `/bin/kill` ends within the five
seconds `KillProcess` waits.  The body writes no member, so the process comes
back as it was. -/
def QChem.kill (m : Monitored) (confirmed : Bool) (psOutput : Option (List Char))
    (childPid : Int) (finished : Bool) : Monitored × KillReport :=
  if m.status ≠ Status.Running then
    (m, { asked := false, commands := [], warnings := [] })
  else if confirmed = false then
    (m, { asked := true, commands := [], warnings := [] })
  else if QChem.pid psOutput childPid > 0 then
    if (KillProcess (QChem.pid psOutput childPid) SIGTERM finished).1 = false then
      (m, { asked := true,
            commands := [(KillProcess (QChem.pid psOutput childPid) SIGTERM finished).2],
            warnings :=
              ["Unable to kill process " ++ number (QChem.pid psOutput childPid)] })
    else
      (m, { asked := true,
            commands := [(KillProcess (QChem.pid psOutput childPid) SIGTERM finished).2],
            warnings := [] })
  else
    (m, { asked := true, commands := [],
          warnings := ["Unable to determine process ID for job termination"] })

/-- The parts of a path between its slashes. -/
def splitSlash : List Char → List (List Char)
  | [] => [[]]
  | c :: cs =>
      if c = Char.ofNat 47 then [] :: splitSlash cs
      else
        match splitSlash cs with
        | [] => [[c]]
        | l :: ls => (c :: l) :: ls

/-- The components of a path as the operating system reads it: the parts
between slashes, without the empty ones and the ones that are a single dot.
Parent references and links are not followed. -/
def pathComponents (path : String) : List String :=
  ((splitSlash path.data).filter (fun c => !c.isEmpty && c != [Char.ofNat 46])).map String.mk

/-- `QDir::isAbsolutePath(path)` on a system with slashes: the path starts with
one. -/
def QDir.isAbsolutePath (path : String) : Bool :=
  path.data.head? = some (Char.ofNat 47)

/-- The file that a path names for a program whose working directory is `cwd`:
the components from the root. -/
def resolve (cwd path : String) : List String :=
  if QDir.isAbsolutePath path then pathComponents path
  else pathComponents cwd ++ pathComponents path

/-- `QDir(dir).filePath(fileName)`: an absolute `fileName` as it is, and
otherwise the path of the directory, a slash unless that path is empty or ends
with one, and `fileName`. Nothing is simplified. -/
def QDir.filePath (dir fileName : String) : String :=
  if QDir.isAbsolutePath fileName then fileName
  else if fileName = "" then dir
  else if dir ≠ "" ∧ dir.data.getLast? ≠ some (Char.ofNat 47) then dir ++ "/" ++ fileName
  else dir ++ fileName

/-- `QDir(dir).rename(oldName, newName)`, which is
`QFile(filePath(oldName)).rename(filePath(newName))`: Qt renames only when the
old file exists and no file has the new path, and otherwise leaves the files
as they are and returns false.  `files` are the existing files, each by its
components from the root. -/
def QDir.rename (cwd : String) (files : List (List String)) (dir oldName newName : String) :
    List (List String) :=
  if oldName = "" ∨ newName = "" then files
  else if resolve cwd (QDir.filePath dir oldName) ∈ files ∧
      resolve cwd (QDir.filePath dir newName) ∉ files then
    resolve cwd (QDir.filePath dir newName)
      :: files.erase (resolve cwd (QDir.filePath dir oldName))
  else files

/-- `QChem::renameFchkFile()`: `outPath` is `output.path()` and `baseName` is
`output.completeBaseName()` for the output file, `files` are the existing files
and `m_auxFile` the recorded auxiliary file.  The result is the files and the
recorded auxiliary file afterwards.  The new name handed to `dir.rename` and
recorded by `setAuxFile` is `fchk.filePath()`, the bare `baseName + ".FChk"`;
the value of `dir.rename` is not tested by the code. -/
def QChem.renameFchkFile (cwd : String) (files : List (List String))
    (outPath baseName : String) (m_auxFile : String) : List (List String) × String :=
  if resolve cwd (outPath ++ "/Test.FChk") ∈ files then
    (QDir.rename cwd files outPath (outPath ++ "/Test.FChk") (baseName ++ ".FChk"),
      baseName ++ ".FChk")
  else (files, m_auxFile)

/-! ## getpids -/

/-- What `queryprocess(pid, &ppid, &createtime)` returns: 0 when the process
cannot be opened, -1 when a query on it fails, 1 with the parent pid and the
creation time otherwise. -/
inductive GetPIDs.Query where
  | missing
  | failed
  | found (ppid : Nat) (createTime : Int)
  deriving DecidableEq, Repr

/-- The outcome of `main` of `getpids.C`: the vector `familyTree` and the value
returned, `none` when the climb is still going on after the given number of
passes of its `while (1)` loop. -/
structure GetPIDs.Climb where
  /-- The vector `familyTree`. -/
  familyTree : List Nat
  /-- The value returned by `main`. -/
  rc : Option Int
  deriving DecidableEq, Repr

/-- The `while (1)` loop of `main`: `pid` is `ulQueryPid`, `childTime` is
`llChildProcessCreateTime`; the first argument bounds the number of passes. -/
def GetPIDs.climb (table : Nat → GetPIDs.Query) :
    Nat → Nat → Int → List Nat → GetPIDs.Climb
  | 0, _, _, tree => { familyTree := tree, rc := none }
  | fuel + 1, pid, childTime, tree =>
      match table pid with
      | GetPIDs.Query.missing => { familyTree := tree, rc := some 0 }
      | GetPIDs.Query.found ppid createTime =>
          if childTime < createTime then { familyTree := tree, rc := some 0 }
          else GetPIDs.climb table fuel ppid createTime (tree ++ [pid])
      | GetPIDs.Query.failed => { familyTree := tree, rc := some 1 }

/-- `main` of `getpids.C` after the parsing of its arguments: `queryPid` is
`ulQueryPid` as given by `-p` (0 without it), `current` is
`GetCurrentProcessId()`. -/
def GetPIDs.main (table : Nat → GetPIDs.Query) (fuel : Nat) (current queryPid : Nat) :
    GetPIDs.Climb :=
  match table (if queryPid = 0 then current else queryPid) with
  | GetPIDs.Query.found ppid createTime =>
      GetPIDs.climb table fuel ppid createTime [if queryPid = 0 then current else queryPid]
  | _ => { familyTree := [], rc := some 1 }

/-- Entry `b` may follow entry `a` in the family tree: `b` is the parent pid
reported for `a`, `b` exists and `b` was not created later than `a`. -/
def GetPIDs.Ancestor (table : Nat → GetPIDs.Query) (a b : Nat) : Prop :=
  ∃ (ta : Int) (pb : Nat) (tb : Int),
    table a = GetPIDs.Query.found b ta ∧ table b = GetPIDs.Query.found pb tb ∧ tb ≤ ta

/-- The climb has stopped at an ancestor that is not listed: the parent pid
reported for the last entry `a` does not exist any more, or belongs to a process
created after `a`. -/
def GetPIDs.StoppedAt (table : Nat → GetPIDs.Query) (a : Nat) : Prop :=
  ∃ (ppid : Nat) (ta : Int), table a = GetPIDs.Query.found ppid ta ∧
    (table ppid = GetPIDs.Query.missing ∨
      ∃ (pp : Nat) (tp : Int), table ppid = GetPIDs.Query.found pp tp ∧ ta < tp)

/-- A process table used as a concrete input: 30 is the child of 20 and 20 of
10; the parent pid 7 reported for 10 has been taken by a younger process. -/
def GetPIDs.tableExample (pid : Nat) : GetPIDs.Query :=
  if pid = 30 then GetPIDs.Query.found 20 8
  else if pid = 20 then GetPIDs.Query.found 10 5
  else if pid = 10 then GetPIDs.Query.found 7 3
  else if pid = 7 then GetPIDs.Query.found 1 9
  else GetPIDs.Query.missing

/-- A simple chain of the listing from process `a` down to the engine `pk`, of
`n` links: `a` is the ppid of at least one line, every line with ppid `a` has
the next process of the chain as its pid field, and such a line contains
`qcprog.exe` exactly when it is the last link, whose pid field is `pk`. -/
inductive Leads (lines : List (List Char)) (pk : Int) : Int → Nat → Prop where
  | last (a : Int) :
      (∃ l ∈ lines, isChildLine l a = true) →
      (∀ l ∈ lines, isChildLine l a = true → pidField l = pk ∧ isEngineLine l = true) →
      Leads lines pk a 1
  | step (a b : Int) (n : Nat) :
      (∃ l ∈ lines, isChildLine l a = true) →
      (∀ l ∈ lines, isChildLine l a = true → pidField l = b ∧ isEngineLine l = false) →
      Leads lines pk b n →
      Leads lines pk a (n + 1)

/-- The listing of `psExample` in another order: the engine first, the
wrapper's child last. -/
def psShuffled : List Char :=
  ("  200   300 /opt/qcprog.exe in\n  PPID   PID COMMAND\n"
    ++ "    1   100 /bin/sh runqchem in\n  100   200 /bin/csh qchem in\n").data

end Process

/-! ## MoleculeSection -/

/-- The members of `class MoleculeSection`. -/
structure MoleculeSection where
  /-- Member `m_charge`. -/
  m_charge : Int
  /-- Member `m_multiplicity`. -/
  m_multiplicity : Int
  /-- Member `m_numberOfAtoms`. -/
  m_numberOfAtoms : Int
  /-- Member `m_coordinates`. -/
  m_coordinates : List Char
  deriving DecidableEq, Repr

/-- `MoleculeSection::parseCoordinates()`: the coordinates are trimmed and the
number of atoms is 0 for `read`, the number of lines otherwise. -/
def MoleculeSection.parseCoordinates (sec : MoleculeSection) : MoleculeSection :=
  { sec with
    m_coordinates := Process.trimmed sec.m_coordinates
    m_numberOfAtoms :=
      if Process.trimmed sec.m_coordinates = "read".data then 0
      else ((Process.trimmed sec.m_coordinates).count (Char.ofNat 10) : Int) + 1 }

/-- `MoleculeSection::setCoordinates(coordinates)`. -/
def MoleculeSection.setCoordinates (sec : MoleculeSection) (coordinates : List Char) :
    MoleculeSection :=
  MoleculeSection.parseCoordinates { sec with m_coordinates := coordinates }

/-- `QStringList::join("\n")`. -/
def joinLines : List (List Char) → List Char
  | [] => []
  | [l] => l
  | l :: m :: ls => l ++ Char.ofNat 10 :: joinLines (m :: ls)

/-- The flag `ok` of `QString::toInt(&ok)`: the conversion of `Process.toInt`
succeeds. -/
def toIntOk (s : List Char) : Bool :=
  match s with
  | [] => false
  | c :: cs =>
      if c = Char.ofNat 45 then
        match cs, Process.parseDigits cs 0 with
        | _ :: _, some v => decide (v ≤ 2147483648)
        | _, _ => false
      else if c = Char.ofNat 43 then
        match cs, Process.parseDigits cs 0 with
        | _ :: _, some v => decide (v ≤ 2147483647)
        | _, _ => false
      else
        match Process.parseDigits (c :: cs) 0 with
        | some v => decide (v ≤ 2147483647)
        | none => false

/-- `MoleculeSection::read(input)`; the result is the section afterwards and the
flag `okay`, false when the `Parse Error` warning is shown.  `toLower` is taken
on each character. -/
def MoleculeSection.read (sec : MoleculeSection) (input : List Char) :
    MoleculeSection × Bool :=
  match Process.splitLines (Process.trimmed input) with
  | [] => (sec, false)
  | first :: lines =>
      match Process.tokens first with
      | [t] =>
          if t.map Char.toLower = "read".data then
            (sec.setCoordinates "read".data, true)
          else (sec, false)
      | [t0, t1] =>
          (MoleculeSection.setCoordinates
              { sec with m_charge := Process.toInt t0, m_multiplicity := Process.toInt t1 }
              (joinLines lines),
            toIntOk t0 && toIntOk t1)
      | _ => (sec, false)

/-- What `MoleculeSection::dump()` writes between the lines `$molecule` and
`$end`. -/
def MoleculeSection.dumpBody (sec : MoleculeSection) : List Char :=
  if sec.m_coordinates = "read".data then sec.m_coordinates ++ [Char.ofNat 10]
  else
    (Process.number sec.m_charge).data ++ [Char.ofNat 32]
      ++ (Process.number sec.m_multiplicity).data ++ [Char.ofNat 10]
      ++ (if sec.m_coordinates ≠ [] then sec.m_coordinates ++ [Char.ofNat 10] else [])

/-- `MoleculeSection::dump()`. -/
def MoleculeSection.dump (sec : MoleculeSection) : List Char :=
  "$molecule\n".data ++ sec.dumpBody ++ "$end\n".data

end Qui

namespace Qui
namespace Process

/-! ## The dispatch loop -/

/-- What the dispatch loop does: it starts the first `k` pending handles, for
the `k` at which the pending list runs out or the running count reaches the limit. -/
theorem runQueueLoop_spec (m : Int) (l : List Handle) :
    ∀ (n : Int) (st rn : List Handle), ∃ k : Nat, k ≤ l.length ∧
      runQueueLoop m l n st rn
        = { m_processQueue := l.drop k, m_nProcesses := n + k, m_maxProcesses := m,
            started := st ++ l.take k, running := rn ++ l.take k } ∧
      (l.drop k = [] ∨ m ≤ n + k) ∧ (k = 0 ∨ n + k ≤ m) := by
  induction l with
  | nil =>
      intro n st rn
      exact ⟨0, by simp, by simp [runQueueLoop], by simp, by simp⟩
  | cons p rest ih =>
      intro n st rn
      by_cases h : n < m
      · obtain ⟨k, hk, heq, hstop, hle⟩ := ih (n + 1) (st ++ [p]) (rn ++ [p])
        refine ⟨k + 1, by simpa using hk, ?_, ?_, ?_⟩
        · rw [runQueueLoop, if_pos h, heq]
          simp only [List.drop_succ_cons, List.take_succ_cons, List.append_assoc,
            List.singleton_append, Nat.cast_add, Nat.cast_one, Queue.mk.injEq, and_true,
            true_and]
          omega
        · rcases hstop with h1 | h1
          · left; simpa using h1
          · right; push_cast; omega
        · right
          rcases hle with h1 | h1
          · subst h1; push_cast; omega
          · push_cast; omega
      · refine ⟨0, by simp, by simp [runQueueLoop, h], ?_, by simp⟩
        right; simpa using not_lt.mp h

/-- The effect of `runQueue` on a queue. -/
theorem runQueue_spec (q : Queue) : ∃ k : Nat, k ≤ q.m_processQueue.length ∧
    q.runQueue
      = { m_processQueue := q.m_processQueue.drop k, m_nProcesses := q.m_nProcesses + k,
          m_maxProcesses := q.m_maxProcesses,
          started := q.started ++ q.m_processQueue.take k,
          running := q.running ++ q.m_processQueue.take k } ∧
    (q.m_processQueue.drop k = [] ∨ q.m_maxProcesses ≤ q.m_nProcesses + k) ∧
    (k = 0 ∨ q.m_nProcesses + k ≤ q.m_maxProcesses) :=
  runQueueLoop_spec q.m_maxProcesses q.m_processQueue q.m_nProcesses q.started q.running

/-- The limit `m_maxProcesses` is never written by `runQueue`. -/
theorem runQueue_max (q : Queue) : q.runQueue.m_maxProcesses = q.m_maxProcesses := by
  obtain ⟨k, -, heq, -, -⟩ := runQueue_spec q
  rw [heq]

/-- Dispatch never pushes the running count above the limit. -/
theorem runQueue_le (q : Queue) (h : q.m_nProcesses ≤ q.m_maxProcesses) :
    q.runQueue.m_nProcesses ≤ q.m_maxProcesses := by
  obtain ⟨k, -, heq, -, hle⟩ := runQueue_spec q
  rw [heq]
  rcases hle with h0 | h0
  · subst h0; simpa using h
  · exact h0

/-- After dispatch, nothing is pending or no slot is free. -/
theorem runQueue_saturated (q : Queue) :
    q.runQueue.m_processQueue = [] ∨ q.runQueue.m_maxProcesses ≤ q.runQueue.m_nProcesses := by
  obtain ⟨k, -, heq, hstop, -⟩ := runQueue_spec q
  rw [heq]
  exact hstop

/-- Dispatch moves handles from the front of the pending list to the end of the
start log and changes nothing else in their order. -/
theorem runQueue_order (q : Queue) :
    q.runQueue.started ++ q.runQueue.m_processQueue = q.started ++ q.m_processQueue := by
  obtain ⟨k, -, heq, -, -⟩ := runQueue_spec q
  rw [heq]
  simp

/-- Dispatch raises the running count by the number of handles it starts. -/
theorem runQueue_count (q : Queue) :
    q.runQueue.m_nProcesses - q.runQueue.started.length
      = q.m_nProcesses - q.started.length := by
  obtain ⟨k, hk, heq, -, -⟩ := runQueue_spec q
  rw [heq]
  simp only [List.length_append, List.length_take, Nat.cast_add]
  rw [Nat.min_eq_left hk]
  omega

/-! ## The removal loop -/

/-- A pass of the removal loop whose condition holds: the front is popped and
pushed back unless it is the handle to remove. -/
theorem removeLoop_pass (process : Handle) (fuel i : Nat) (p : Handle) (rest : List Handle)
    (hi : i < (p :: rest).length) :
    removeLoop process (fuel + 1) i (p :: rest)
      = removeLoop process fuel (i + 1) (if p ≠ process then rest ++ [p] else rest) := by
  rw [removeLoop, if_pos hi]

/-- The removal loop stops as soon as its condition fails. -/
theorem removeLoop_stop (process : Handle) (fuel i : Nat) (q : List Handle)
    (hi : ¬ i < q.length) : removeLoop process fuel i q = (i, q) := by
  cases fuel with
  | zero => rfl
  | succ fuel => cases q <;> simp_all [removeLoop]

/-- The removal loop leaves through its own condition: with a pass bound of at
least `size() - i` the returned index is not below the returned size. -/
theorem removeLoop_exit (process : Handle) (fuel : Nat) :
    ∀ (i : Nat) (q : List Handle), q.length - i ≤ fuel →
      ¬ (removeLoop process fuel i q).1 < (removeLoop process fuel i q).2.length := by
  induction fuel with
  | zero =>
      intro i q h
      simp only [removeLoop]
      omega
  | succ fuel ih =>
      intro i q h
      by_cases hi : i < q.length
      · cases q with
        | nil => simp at hi
        | cons p rest =>
            rw [removeLoop_pass process fuel i p rest hi]
            apply ih
            by_cases hp : p = process
            · simp only [hp, ne_eq, not_true_eq_false, if_false]
              simp only [List.length_cons] at h
              omega
            · simp only [ne_eq, hp, not_false_eq_true, if_true, List.length_append,
                List.length_singleton]
              simp only [List.length_cons] at h
              omega
      · rw [removeLoop_stop process _ i q hi]
        exact hi

/-- The loop of `Queue::remove`, entered with `i = 0` and bounded by the initial
size, ends because `i < size()` has become false. -/
theorem remove_loop_exit (process : Handle) (q : List Handle) :
    ¬ (removeLoop process q.length 0 q).1 < (removeLoop process q.length 0 q).2.length :=
  removeLoop_exit process q.length 0 q (by simp)

/-- The removal loop adds no handle to the pending list. -/
theorem removeLoop_count_le (process a : Handle) (fuel : Nat) :
    ∀ (i : Nat) (q : List Handle),
      (removeLoop process fuel i q).2.count a ≤ q.count a := by
  induction fuel with
  | zero => intro i q; simp [removeLoop]
  | succ fuel ih =>
      intro i q
      by_cases hi : i < q.length
      · cases q with
        | nil => simp at hi
        | cons p rest =>
            rw [removeLoop_pass process fuel i p rest hi]
            refine le_trans (ih _ _) ?_
            by_cases hp : p = process
            · simp only [hp, ne_eq, not_true_eq_false, if_false]
              exact List.count_le_count_cons _ _ _
            · simp only [ne_eq, hp, not_false_eq_true, if_true]
              simp [List.count_cons]
      · rw [removeLoop_stop process _ i q hi]

/-- Whatever is pending after the removal loop was pending before it. -/
theorem removeLoop_mem (process a : Handle) (fuel i : Nat) (q : List Handle)
    (h : a ∈ (removeLoop process fuel i q).2) : a ∈ q := by
  rw [← List.count_pos_iff] at h ⊢
  exact lt_of_lt_of_le h (removeLoop_count_le process a fuel i q)

/-- When the handle to remove is not pending, every pass pushes back what it
pops: after the remaining `size() - i` passes the list has been rotated that far. -/
theorem removeLoop_absent (process : Handle) (fuel : Nat) :
    ∀ (i : Nat) (q : List Handle), process ∉ q → q.length - i ≤ fuel →
      (removeLoop process fuel i q).2 = q.rotate (q.length - i) := by
  induction fuel with
  | zero =>
      intro i q _ h
      have h0 : q.length - i = 0 := by omega
      rw [h0, List.rotate_zero]
      rfl
  | succ fuel ih =>
      intro i q hq h
      by_cases hi : i < q.length
      · cases q with
        | nil => simp at hi
        | cons p rest =>
            have hp : p ≠ process := fun e => hq (by simp [e])
            have hrest : process ∉ rest ++ [p] := by
              intro hm
              rcases List.mem_append.mp hm with h1 | h1
              · exact hq (List.mem_cons_of_mem _ h1)
              · exact hp (List.mem_singleton.mp h1).symm
            simp only [List.length_cons] at h hi
            rw [removeLoop_pass process fuel i p rest (by simpa using hi), if_pos hp,
              ih (i + 1) (rest ++ [p]) hrest (by simp; omega)]
            have hlen : (p :: rest).length - i = ((rest ++ [p]).length - (i + 1)) + 1 := by
              simp; omega
            rw [hlen, List.rotate_cons_succ]
      · rw [removeLoop_stop process _ i q hi]
        have h0 : q.length - i = 0 := by omega
        rw [h0, List.rotate_zero]

/-- When the handle to remove is pending exactly once and the remaining passes
reach its position, it is no longer pending after the loop. -/
theorem removeLoop_removes (process : Handle) (fuel : Nat) :
    ∀ (i : Nat) (q : List Handle), q.count process = 1 →
      q.indexOf process + i < q.length → q.length - i ≤ fuel →
      process ∉ (removeLoop process fuel i q).2 := by
  induction fuel with
  | zero =>
      intro i q _ hidx h
      omega
  | succ fuel ih =>
      intro i q hc hidx h
      cases q with
      | nil => simp at hc
      | cons p rest =>
          have hi : i < (p :: rest).length := by omega
          rw [removeLoop_pass process fuel i p rest hi]
          by_cases hp : p = process
          · subst hp
            simp only [ne_eq, not_true_eq_false, if_false]
            have hrest : p ∉ rest := by
              rw [← List.count_eq_zero]
              simpa using hc
            exact fun hm => hrest (removeLoop_mem p p fuel (i + 1) rest hm)
          · simp only [ne_eq, hp, not_false_eq_true, if_true]
            have hc1 : rest.count process = 1 := by
              rwa [List.count_cons_of_ne (Ne.symm hp)] at hc
            have hmem : process ∈ rest := by
              rw [← List.count_pos_iff, hc1]
              exact Nat.one_pos
            rw [List.indexOf_cons_ne _ hp] at hidx
            simp only [List.length_cons] at hidx h
            apply ih
            · simp [List.count_append, hc1, List.count_singleton, hp]
            · rw [List.indexOf_append_of_mem hmem]
              simp
              omega
            · simp
              omega

/-- `Queue::remove` only writes the pending list. -/
theorem remove_frame (q : Queue) (process : Handle) :
    (q.remove process).m_nProcesses = q.m_nProcesses ∧
    (q.remove process).m_maxProcesses = q.m_maxProcesses ∧
    (q.remove process).started = q.started ∧
    (q.remove process).running = q.running :=
  ⟨rfl, rfl, rfl, rfl⟩

/-! ## Sequences of calls -/

/-- Performing a call and then a sequence of calls. -/
theorem run_cons (q : Queue) (op : Op) (ops : List Op) :
    q.run (op :: ops) = (q.step op).run ops := rfl

/-- Performing a sequence of calls and then one more. -/
theorem run_snoc (q : Queue) (ops : List Op) (op : Op) :
    q.run (ops ++ [op]) = (q.run ops).step op := by
  simp [Queue.run, List.foldl_append]

/-- No call writes the limit. -/
theorem step_max (q : Queue) (op : Op) : (q.step op).m_maxProcesses = q.m_maxProcesses := by
  cases op with
  | submit p => exact runQueue_max _
  | finished s c e => exact runQueue_max _
  | remove p => rfl

/-- No call pushes the running count above the limit. -/
theorem step_le (q : Queue) (op : Op) (h : q.m_nProcesses ≤ q.m_maxProcesses) :
    (q.step op).m_nProcesses ≤ q.m_maxProcesses := by
  cases op with
  | submit p =>
      exact runQueue_le { q with m_processQueue := q.m_processQueue ++ [p] } h
  | finished s c e =>
      refine runQueue_le
        { q with m_nProcesses := q.m_nProcesses - 1, running := q.running.erase s } ?_
      show q.m_nProcesses - 1 ≤ q.m_maxProcesses
      omega
  | remove p => exact h

/-- The running count stays within the limit along any sequence of calls. -/
theorem run_le (ops : List Op) : ∀ q : Queue, q.m_nProcesses ≤ q.m_maxProcesses →
    (q.run ops).m_nProcesses ≤ q.m_maxProcesses ∧
    (q.run ops).m_maxProcesses = q.m_maxProcesses := by
  induction ops with
  | nil => intro q h; exact ⟨h, rfl⟩
  | cons op ops ih =>
      intro q h
      have h1 := step_le q op h
      rw [← step_max q op] at h1
      obtain ⟨h2, h3⟩ := ih (q.step op) h1
      rw [step_max] at h2 h3
      exact ⟨h2, h3⟩

/-- Removing from an empty pending list leaves it empty. -/
theorem remove_nil (q : Queue) (process : Handle) (h : q.m_processQueue = []) :
    (q.remove process).m_processQueue = [] := by
  simp [Queue.remove, h, removeLoop]

/-- No call leaves a handle pending beside a free slot. -/
theorem step_saturated (q : Queue) (op : Op)
    (h : q.m_processQueue = [] ∨ q.m_maxProcesses ≤ q.m_nProcesses) :
    (q.step op).m_processQueue = [] ∨ (q.step op).m_maxProcesses ≤ (q.step op).m_nProcesses := by
  cases op with
  | submit p => exact runQueue_saturated _
  | finished s c e => exact runQueue_saturated _
  | remove p =>
      rcases h with h | h
      · exact Or.inl (remove_nil q p h)
      · exact Or.inr h

/-- Along any sequence of calls, a pending handle means no free slot. -/
theorem run_saturated (ops : List Op) : ∀ q : Queue,
    (q.m_processQueue = [] ∨ q.m_maxProcesses ≤ q.m_nProcesses) →
    ((q.run ops).m_processQueue = [] ∨ (q.run ops).m_maxProcesses ≤ (q.run ops).m_nProcesses) := by
  induction ops with
  | nil => intro q h; exact h
  | cons op ops ih => intro q h; exact ih (q.step op) (step_saturated q op h)

/-- The running count is the number of starts minus the number of completion
notifications, whatever the calls. -/
theorem run_count (ops : List Op) : ∀ q : Queue,
    (q.run ops).m_nProcesses - (q.run ops).started.length
      = q.m_nProcesses - q.started.length - completions ops := by
  induction ops with
  | nil => intro q; simp [Queue.run, completions]
  | cons op ops ih =>
      intro q
      rw [run_cons, ih]
      cases op with
      | submit p =>
          have h := runQueue_count { q with m_processQueue := q.m_processQueue ++ [p] }
          simp only [Queue.step, Queue.submit, completions]
          rw [h]
      | finished s c e =>
          have h := runQueue_count
            { q with m_nProcesses := q.m_nProcesses - 1, running := q.running.erase s }
          simp only [Queue.step, Queue.processFinished, completions]
          rw [h]
          push_cast
          omega
      | remove p => simp [Queue.step, Queue.remove, completions]

/-- Without removals, the start log followed by the pending list is the
submission order. -/
theorem run_order (ops : List Op) : ∀ q : Queue, noRemove ops = true →
    (q.run ops).started ++ (q.run ops).m_processQueue
      = q.started ++ q.m_processQueue ++ submitted ops := by
  induction ops with
  | nil => intro q _; simp [Queue.run, submitted]
  | cons op ops ih =>
      intro q h
      cases op with
      | submit p =>
          rw [run_cons, ih _ (by simpa [noRemove] using h)]
          simp only [Queue.step, Queue.submit, submitted]
          rw [runQueue_order]
          simp
      | finished s c e =>
          rw [run_cons, ih _ (by simpa [noRemove] using h)]
          simp only [Queue.step, Queue.processFinished, submitted]
          rw [runQueue_order]
      | remove p => simp [noRemove] at h

/-- Dispatch cannot start a handle that is not pending. -/
theorem runQueue_absent (q : Queue) (h : Handle) (hq : h ∉ q.m_processQueue) :
    h ∉ q.runQueue.m_processQueue ∧ q.runQueue.started.count h = q.started.count h := by
  obtain ⟨k, -, heq, -, -⟩ := runQueue_spec q
  rw [heq]
  refine ⟨fun hm => hq (List.mem_of_mem_drop hm), ?_⟩
  have h0 : (q.m_processQueue.take k).count h = 0 :=
    List.count_eq_zero.mpr (fun hm => hq (List.mem_of_mem_take hm))
  simp [List.count_append, h0]

/-- A call that does not submit `h` cannot start `h` when `h` is not pending. -/
theorem step_absent (q : Queue) (h : Handle) (op : Op) (hq : h ∉ q.m_processQueue)
    (hop : op ≠ Op.submit h) :
    h ∉ (q.step op).m_processQueue ∧ (q.step op).started.count h = q.started.count h := by
  cases op with
  | submit p =>
      have hp : p ≠ h := fun e => hop (by rw [e])
      refine runQueue_absent { q with m_processQueue := q.m_processQueue ++ [p] } h ?_
      intro hm
      rcases List.mem_append.mp hm with h1 | h1
      · exact hq h1
      · exact hp (List.mem_singleton.mp h1).symm
  | finished s c e =>
      exact runQueue_absent
        { q with m_nProcesses := q.m_nProcesses - 1, running := q.running.erase s } h hq
  | remove p =>
      exact ⟨fun hm => hq (removeLoop_mem p h _ _ _ hm), rfl⟩

/-- A handle that is not pending is not started by any sequence of calls that
does not submit it. -/
theorem run_absent (h : Handle) (ops : List Op) : ∀ q : Queue, h ∉ q.m_processQueue →
    (∀ op ∈ ops, op ≠ Op.submit h) →
    h ∉ (q.run ops).m_processQueue ∧ (q.run ops).started.count h = q.started.count h := by
  induction ops with
  | nil => intro q hq _; exact ⟨hq, rfl⟩
  | cons op ops ih =>
      intro q hq hops
      obtain ⟨h1, h2⟩ := step_absent q h op hq (hops op (List.mem_cons_self _ _))
      obtain ⟨h3, h4⟩ := ih (q.step op) h1 (fun o ho => hops o (List.mem_cons_of_mem _ ho))
      exact ⟨h3, h4.trans h2⟩

/-- The handles submitted by a sequence of calls followed by one more call. -/
theorem submitted_snoc (ops : List Op) (op : Op) :
    submitted (ops ++ [op])
      = submitted ops ++ (match op with | Op.submit p => [p] | _ => []) := by
  induction ops with
  | nil => cases op <;> simp [submitted]
  | cons o ops ih => cases o <;> simp [submitted, ih]

/-- Dispatch keeps every running handle in the start log. -/
theorem runQueue_running (q : Queue) (h : ∀ x ∈ q.running, x ∈ q.started) :
    ∀ x ∈ q.runQueue.running, x ∈ q.runQueue.started := by
  obtain ⟨k, -, heq, -, -⟩ := runQueue_spec q
  rw [heq]
  intro x hx
  rcases List.mem_append.mp hx with h1 | h1
  · exact List.mem_append_left _ (h x h1)
  · exact List.mem_append_right _ h1

/-- Submitting a handle never submitted before keeps the invariant. -/
theorem submit_separated (q : Queue) (subs : List Handle) (p : Handle)
    (hinv : Separated q subs) (hp : p ∉ subs) : Separated (q.submit p) (subs ++ [p]) := by
  obtain ⟨hnd, hsub, hrun⟩ := hinv
  have hord : (q.submit p).started ++ (q.submit p).m_processQueue
      = (q.started ++ q.m_processQueue) ++ [p] := by
    rw [Queue.submit, runQueue_order]
    simp
  refine ⟨?_, ?_, ?_⟩
  · rw [hord]
    refine List.Nodup.append hnd (List.nodup_singleton p) ?_
    intro x hx hx1
    rw [List.mem_singleton] at hx1
    subst hx1
    exact hp (hsub x hx)
  · rw [hord]
    intro x hx
    rcases List.mem_append.mp hx with h1 | h1
    · exact List.mem_append_left _ (hsub x h1)
    · exact List.mem_append_right _ h1
  · exact runQueue_running { q with m_processQueue := q.m_processQueue ++ [p] } hrun

/-- A completion notification keeps the invariant. -/
theorem processFinished_separated (q : Queue) (subs : List Handle) (s : Handle) (c : Int)
    (e : ExitStatus) (hinv : Separated q subs) : Separated (q.processFinished s c e) subs := by
  obtain ⟨hnd, hsub, hrun⟩ := hinv
  have hord : (q.processFinished s c e).started ++ (q.processFinished s c e).m_processQueue
      = q.started ++ q.m_processQueue := by
    rw [Queue.processFinished, runQueue_order]
  refine ⟨by rw [hord]; exact hnd, by rw [hord]; exact hsub, ?_⟩
  refine runQueue_running
    { q with m_nProcesses := q.m_nProcesses - 1, running := q.running.erase s } ?_
  intro x hx
  exact hrun x (List.mem_of_mem_erase hx)

/-- A removal keeps the invariant. -/
theorem remove_separated (q : Queue) (subs : List Handle) (p : Handle)
    (hinv : Separated q subs) : Separated (q.remove p) subs := by
  obtain ⟨hnd, hsub, hrun⟩ := hinv
  refine ⟨?_, ?_, hrun⟩
  · rw [List.nodup_iff_count_le_one] at hnd ⊢
    intro a
    refine le_trans ?_ (hnd a)
    simp only [Queue.remove, List.count_append]
    exact Nat.add_le_add_left (removeLoop_count_le p a _ _ _) _
  · intro x hx
    apply hsub
    rcases List.mem_append.mp hx with h1 | h1
    · exact List.mem_append_left _ h1
    · exact List.mem_append_right _ (removeLoop_mem p x _ _ _ h1)

/-- The invariant holds along every sequence of calls that submits no handle
twice. -/
theorem run_separated (maxProcesses : Int) (ops : List Op) :
    (submitted ops).Nodup → Separated ((Queue.new maxProcesses).run ops) (submitted ops) := by
  induction ops using List.reverseRecOn with
  | nil =>
      intro _
      exact ⟨List.nodup_nil, fun x hx => by simp [Queue.run, Queue.new] at hx,
        fun x hx => by simp [Queue.run, Queue.new] at hx⟩
  | append_singleton ops op ih =>
      intro hnd
      rw [submitted_snoc] at hnd ⊢
      rw [run_snoc]
      cases op with
      | submit p =>
          simp only at hnd ⊢
          have h1 : (submitted ops).Nodup := (List.nodup_append.mp hnd).1
          have h2 : p ∉ submitted ops := fun hm =>
            (List.nodup_append.mp hnd).2.2 hm (List.mem_singleton_self p)
          exact submit_separated _ _ p (ih h1) h2
      | finished s c e =>
          simp only [List.append_nil] at hnd ⊢
          exact processFinished_separated _ _ s c e (ih hnd)
      | remove p =>
          simp only [List.append_nil] at hnd ⊢
          exact remove_separated _ _ p (ih hnd)

/-! ## Properties of the dispatch queue -/

/-- Claim C1: for a queue constructed with `maxProcesses >= 1`, after any sequence
of submit, completion-notification and remove calls from the empty queue the
running count `m_nProcesses` is at most `maxProcesses`. -/
theorem Queue.running_count_le_max (maxProcesses : Int) (hmax : 1 ≤ maxProcesses)
    (ops : List Op) :
    ((Queue.new maxProcesses).run ops).m_nProcesses ≤ maxProcesses := by
  have h0 : (Queue.new maxProcesses).m_nProcesses ≤ (Queue.new maxProcesses).m_maxProcesses := by
    show (0 : Int) ≤ maxProcesses
    omega
  exact (run_le ops (Queue.new maxProcesses) h0).1

/-- Claim C1 at a concrete run: limit 2, three submissions, one completion, one
removal. -/
theorem Queue.running_count_le_max_witness :
    (1 : Int) ≤ 2 ∧
    ((Queue.new 2).run [Op.submit 1, Op.submit 2, Op.submit 3,
      Op.finished 1 0 ExitStatus.NormalExit, Op.remove 3]).m_nProcesses ≤ 2 :=
  ⟨by decide, Queue.running_count_le_max 2 (by decide) _⟩

/-- Claim C2: for every sequence of submit and completion-notification calls (no
removal), the start log followed by the pending list is the list of submitted
handles in submission order, so handles are started in exactly the order of
their submission; and with `maxProcesses = 1`, if the handle at position `k`
(counting from 0) of that order has been started then at least `k` completion
notifications have been received. -/
theorem Queue.starts_in_submission_order (maxProcesses : Int) (ops : List Op)
    (hno : noRemove ops = true) :
    ((Queue.new maxProcesses).run ops).started
        ++ ((Queue.new maxProcesses).run ops).m_processQueue = submitted ops ∧
    (maxProcesses = 1 → ∀ k : Nat,
      k < ((Queue.new maxProcesses).run ops).started.length → k ≤ completions ops) := by
  constructor
  · have h := run_order ops (Queue.new maxProcesses) hno
    simpa [Queue.new] using h
  · intro h1 k hk
    subst h1
    have hc := run_count ops (Queue.new 1)
    have hle := (run_le ops (Queue.new 1) (by decide)).1
    simp only [Queue.new, List.length_nil, Nat.cast_zero, sub_zero, zero_sub] at hc hle
    simp only [Queue.new] at hk
    omega

/-- Claim C2 at a concrete run with limit 1: 1, 2 submitted, 1 completed, 3
submitted.  The order of starts and waits is 1, 2, 3, and the second start
(position 1) has happened with one completion received. -/
theorem Queue.starts_in_submission_order_witness :
    ((Queue.new 1).run [Op.submit 1, Op.submit 2, Op.finished 1 0 ExitStatus.NormalExit,
        Op.submit 3]).started
      ++ ((Queue.new 1).run [Op.submit 1, Op.submit 2, Op.finished 1 0 ExitStatus.NormalExit,
        Op.submit 3]).m_processQueue = [1, 2, 3] ∧
    1 ≤ completions [Op.submit 1, Op.submit 2, Op.finished 1 0 ExitStatus.NormalExit,
        Op.submit 3] :=
  have h := Queue.starts_in_submission_order 1
    [Op.submit 1, Op.submit 2, Op.finished 1 0 ExitStatus.NormalExit, Op.submit 3] rfl
  ⟨h.1, h.2 rfl 1 (by decide)⟩

/-- Claim C3: when the running count equals `m_maxProcesses` and the pending list
is `p :: rest`, a completion notification, whatever its sender, exit code and
exit status, starts exactly `p`, leaves `rest` pending in the same order and
leaves the running count equal to `m_maxProcesses`. -/
theorem Queue.processFinished_starts_front (q : Queue) (p : Handle) (rest : List Handle)
    (sender : Handle) (exitCode : Int) (exitStatus : ExitStatus)
    (hq : q.m_processQueue = p :: rest) (hfull : q.m_nProcesses = q.m_maxProcesses) :
    (q.processFinished sender exitCode exitStatus).started = q.started ++ [p] ∧
    (q.processFinished sender exitCode exitStatus).m_processQueue = rest ∧
    (q.processFinished sender exitCode exitStatus).m_nProcesses = q.m_maxProcesses ∧
    (q.processFinished sender exitCode exitStatus).m_maxProcesses = q.m_maxProcesses ∧
    (q.processFinished sender exitCode exitStatus).running
      = q.running.erase sender ++ [p] := by
  have h1 : q.m_nProcesses - 1 < q.m_maxProcesses := by omega
  have h2 : ¬ q.m_nProcesses - 1 + 1 < q.m_maxProcesses := by omega
  simp only [Queue.processFinished, Queue.runQueue, hq, runQueueLoop, if_pos h1]
  cases rest with
  | nil => simp [runQueueLoop, hfull]
  | cons r rest => simp [runQueueLoop, h2, hfull]

/-- Claim C3 at the run of the specification: limit 2, submitting 1, 2, 3 starts
1 and 2 at once; the completion of 1, here a crash, starts 3. -/
theorem Queue.processFinished_starts_front_witness :
    ((Queue.new 2).run [Op.submit 1, Op.submit 2, Op.submit 3]).started = [1, 2] ∧
    (((Queue.new 2).run [Op.submit 1, Op.submit 2, Op.submit 3]).processFinished
        1 139 ExitStatus.CrashExit).started = [1, 2, 3] ∧
    (((Queue.new 2).run [Op.submit 1, Op.submit 2, Op.submit 3]).processFinished
        1 139 ExitStatus.CrashExit).m_processQueue = [] ∧
    (((Queue.new 2).run [Op.submit 1, Op.submit 2, Op.submit 3]).processFinished
        1 139 ExitStatus.CrashExit).m_nProcesses = 2 :=
  have h := Queue.processFinished_starts_front
    ((Queue.new 2).run [Op.submit 1, Op.submit 2, Op.submit 3]) 3 [] 1 139
    ExitStatus.CrashExit (by decide) (by decide)
  ⟨by decide, h.1, h.2.1, h.2.2.1⟩

/-- Claim C4: after any sequence of submit, completion-notification and remove
calls from the empty queue, the pending list is empty or the running count is at
least `m_maxProcesses`; and a handle submitted in such a state while a slot is
free is started by that `submit` call and is not left pending. -/
theorem Queue.no_pending_beside_free_slot (maxProcesses : Int) (ops : List Op) :
    (((Queue.new maxProcesses).run ops).m_processQueue = [] ∨
      ((Queue.new maxProcesses).run ops).m_maxProcesses
        ≤ ((Queue.new maxProcesses).run ops).m_nProcesses) ∧
    ∀ h : Handle,
      ((Queue.new maxProcesses).run ops).m_nProcesses
          < ((Queue.new maxProcesses).run ops).m_maxProcesses →
        (((Queue.new maxProcesses).run ops).submit h).started
            = ((Queue.new maxProcesses).run ops).started ++ [h] ∧
        h ∉ (((Queue.new maxProcesses).run ops).submit h).m_processQueue := by
  have hsat := run_saturated ops (Queue.new maxProcesses) (Or.inl rfl)
  refine ⟨hsat, ?_⟩
  intro h hfree
  have hnil : ((Queue.new maxProcesses).run ops).m_processQueue = [] := by
    rcases hsat with h1 | h1
    · exact h1
    · omega
  simp [Queue.submit, Queue.runQueue, hnil, runQueueLoop, hfree]

/-- Claim C4 at a concrete run: limit 2 and one handle running; a second
submission is started by the `submit` call itself. -/
theorem Queue.no_pending_beside_free_slot_witness :
    (((Queue.new 2).run [Op.submit 1]).submit 2).started = [1, 2] ∧
    2 ∉ (((Queue.new 2).run [Op.submit 1]).submit 2).m_processQueue :=
  (Queue.no_pending_beside_free_slot 2 [Op.submit 1]).2 2 (by decide)

/-- Claim C5, as stated, fails: with limit 1, submitting the same handle twice
leaves it both running and pending. -/
theorem Queue.pending_and_running_counterexample :
    1 ∈ ((Queue.new 1).run [Op.submit 1, Op.submit 1]).m_processQueue ∧
    1 ∈ ((Queue.new 1).run [Op.submit 1, Op.submit 1]).running := by
  decide

/-- Claim C5, amended: after any sequence of submit, completion-notification and
remove calls from the empty queue in which no handle is submitted more than
once, no handle of the pending list is running. -/
theorem Queue.pending_not_running (maxProcesses : Int) (ops : List Op)
    (hdistinct : (submitted ops).Nodup) :
    ∀ h ∈ ((Queue.new maxProcesses).run ops).m_processQueue,
      h ∉ ((Queue.new maxProcesses).run ops).running := by
  obtain ⟨hnd, -, hrun⟩ := run_separated maxProcesses ops hdistinct
  intro h hp hr
  exact (List.nodup_append.mp hnd).2.2 (hrun h hr) hp

/-- Claim C5, amended, at a concrete run: limit 1, handles 1, 2, 3, 4 submitted
once each, 1 completed and 3 removed; 4 is pending and is not running. -/
theorem Queue.pending_not_running_witness :
    (submitted [Op.submit 1, Op.submit 2, Op.submit 3, Op.submit 4,
        Op.finished 1 0 ExitStatus.NormalExit, Op.remove 3]).Nodup ∧
    4 ∈ ((Queue.new 1).run [Op.submit 1, Op.submit 2, Op.submit 3, Op.submit 4,
        Op.finished 1 0 ExitStatus.NormalExit, Op.remove 3]).m_processQueue ∧
    4 ∉ ((Queue.new 1).run [Op.submit 1, Op.submit 2, Op.submit 3, Op.submit 4,
        Op.finished 1 0 ExitStatus.NormalExit, Op.remove 3]).running :=
  ⟨by decide, by decide,
   Queue.pending_not_running 1 [Op.submit 1, Op.submit 2, Op.submit 3, Op.submit 4,
     Op.finished 1 0 ExitStatus.NormalExit, Op.remove 3] (by decide) 4 (by decide)⟩

/-- Claim C6: when `h` is pending exactly once, after `remove(h)` the pending
list no longer contains `h`, and along every later sequence of calls that does
not submit `h` again (completion notifications, submits of other handles) `h`
is never started: it gains no entry in the start log and does not come back
to the pending list. -/
theorem Queue.remove_pending_never_starts (q : Queue) (h : Handle)
    (hone : q.m_processQueue.count h = 1) :
    h ∉ (q.remove h).m_processQueue ∧
    ∀ ops : List Op, (∀ op ∈ ops, op ≠ Op.submit h) →
      h ∉ ((q.remove h).run ops).m_processQueue ∧
      ((q.remove h).run ops).started.count h = q.started.count h := by
  have hmem : h ∈ q.m_processQueue := by
    rw [← List.count_pos_iff, hone]
    exact Nat.one_pos
  have hgone : h ∉ (q.remove h).m_processQueue := by
    apply removeLoop_removes h _ 0 _ hone
    · simpa using List.indexOf_lt_length.mpr hmem
    · simp
  refine ⟨hgone, ?_⟩
  intro ops hops
  exact run_absent h ops (q.remove h) hgone hops

/-- Claim C6 at a concrete run: limit 1, handle 2 removed while pending behind 1;
after 1 completes, 4 is submitted and 3 completes, 2 has not been started. -/
theorem Queue.remove_pending_never_starts_witness :
    2 ∉ (((Queue.new 1).run [Op.submit 1, Op.submit 2, Op.submit 3]).remove 2).m_processQueue ∧
    ((((Queue.new 1).run [Op.submit 1, Op.submit 2, Op.submit 3]).remove 2).run
        [Op.finished 1 0 ExitStatus.NormalExit, Op.submit 4,
         Op.finished 3 1 ExitStatus.CrashExit]).started.count 2 = 0 :=
  have h := Queue.remove_pending_never_starts
    ((Queue.new 1).run [Op.submit 1, Op.submit 2, Op.submit 3]) 2 (by decide)
  ⟨h.1, (h.2 [Op.finished 1 0 ExitStatus.NormalExit, Op.submit 4,
      Op.finished 3 1 ExitStatus.CrashExit] (by decide)).2⟩

/-- Claim C7: when `h` is not in the pending list, `remove(h)` changes nothing:
the pending list (same handles, same order), the running count, the limit and
the start log are all as before. -/
theorem Queue.remove_absent_unchanged (q : Queue) (h : Handle)
    (habsent : h ∉ q.m_processQueue) : q.remove h = q := by
  have hloop := removeLoop_absent h q.m_processQueue.length 0 q.m_processQueue habsent
    (by simp)
  simp only [Nat.sub_zero, List.rotate_length] at hloop
  simp only [Queue.remove, hloop]

/-- Claim C7 at a concrete run: limit 1, handle 1 is running and 2, 3 are
pending; removing the running handle 1 changes nothing. -/
theorem Queue.remove_absent_unchanged_witness :
    ((Queue.new 1).run [Op.submit 1, Op.submit 2, Op.submit 3]).remove 1
      = (Queue.new 1).run [Op.submit 1, Op.submit 2, Op.submit 3] :=
  Queue.remove_absent_unchanged _ 1 (by decide)

/-- Claim C8 fails on the code: `Queue::remove` reads `size()` again after the
pop that drops the handle, so the rotation stops one pass early.  With limit 1
and 1, 2, 3 pending behind the running handle 0, `remove(1)` leaves `[3, 2]`
pending, and the next two completions start 3 before 2. -/
theorem Queue.remove_reorders_pending :
    ((Queue.new 1).run [Op.submit 0, Op.submit 1, Op.submit 2, Op.submit 3]).m_processQueue
      = [1, 2, 3] ∧
    (((Queue.new 1).run [Op.submit 0, Op.submit 1, Op.submit 2, Op.submit 3]).remove
        1).m_processQueue = [3, 2] ∧
    ((Queue.new 1).run [Op.submit 0, Op.submit 1, Op.submit 2, Op.submit 3, Op.remove 1,
        Op.finished 0 0 ExitStatus.NormalExit,
        Op.finished 3 0 ExitStatus.NormalExit]).started = [0, 3, 2] := by
  decide

/-! ## Properties of the process status -/

/-- Claim C9: `Process::status()` is `Queued` when `m_started` is false, whatever
the state of the `QProcess` and the recorded status; otherwise it is `Starting`
when the `QProcess` is starting, `Running` when it is running and the recorded
`m_status` when it is not running.  A freshly constructed handle reports
`Queued`. -/
theorem Process.status_table :
    (∀ (os : ProcessState) (recorded : Status),
      Process.status { state := os, m_status := recorded, m_started := false }
        = Status.Queued) ∧
    (∀ recorded : Status,
      Process.status
        { state := ProcessState.Starting, m_status := recorded, m_started := true }
        = Status.Starting) ∧
    (∀ recorded : Status,
      Process.status
        { state := ProcessState.Running, m_status := recorded, m_started := true }
        = Status.Running) ∧
    (∀ recorded : Status,
      Process.status
        { state := ProcessState.NotRunning, m_status := recorded, m_started := true }
        = recorded) ∧
    Process.new.status = Status.Queued := by
  refine ⟨?_, ?_, ?_, ?_, ?_⟩ <;> intros <;> simp [Process.status, Process.new]

/-- Claim C10 fails on the code: `start()` does not write `m_started`, which only
the `started()` notification sets.  After `start()` on a new `Monitored`
process the `QProcess` is in its starting state and `m_started` is still false,
so `status()` returns `Queued`, not `Starting`; it leaves `Queued` only with
the notification, when the `QProcess` is already running. -/
theorem Monitored.start_still_queued (exitCode : Int) :
    (Monitored.new exitCode).start.state = ProcessState.Starting ∧
    (Monitored.new exitCode).start.m_started = false ∧
    (Monitored.new exitCode).start.status = Status.Queued ∧
    (Monitored.new exitCode).start.osStarted.status = Status.Running := by
  simp [Monitored.new, Monitored.start, Monitored.osStarted, Monitored.processStarted,
    Process.new, Process.start, Process.status]

/-! ## The lifecycle of a monitored process -/

/-- Following values of `status()` compose. -/
theorem Status.Forward.trans {a b c : Status} (h1 : Status.Forward a b)
    (h2 : Status.Forward b c) : Status.Forward a c := by
  rcases h1 with h1 | h1
  · rw [h1]; exact h2
  · rcases h2 with h2 | h2
    · rw [← h2]; exact Or.inr h1
    · exact Or.inr (lt_trans h1 h2)

/-- Each deliverable event moves `status()` forward or leaves it, and keeps what
holds of a single-use process, provided `start()` is not called a second time. -/
theorem lifecycle_step (m : Monitored) (used : Bool) (e : Event)
    (hinv : m.Lifecycle used) (hf : m.feasible e = true)
    (hs : e = Event.start → used = false) :
    Status.Forward m.status (m.apply e).status ∧
    (m.apply e).Lifecycle (if e = Event.start then true else used) := by
  obtain ⟨⟨state, status, started⟩, err, code⟩ := m
  obtain ⟨h1, h2, h3⟩ := hinv
  simp only at h1 h2 h3
  cases e with
  | start =>
      have hu := hs rfl
      obtain ⟨hst, hsd⟩ := h1 hu
      subst hst hsd
      simp [Monitored.apply, Monitored.start, Process.start, Process.status,
        Status.Forward, Monitored.Lifecycle]
  | osStarted =>
      have hst : state = ProcessState.Starting := by
        simpa [Monitored.feasible] using hf
      subst hst
      have hsd : started = false := by
        cases started with
        | false => rfl
        | true => exact absurd rfl (h2 rfl)
      subst hsd
      have hu : used = true := by
        cases used with
        | true => rfl
        | false => exact absurd (h1 rfl).1 (by decide)
      subst hu
      simp [Monitored.apply, Monitored.osStarted, Monitored.processStarted, Process.status,
        Status.Forward, Monitored.Lifecycle, Status.rank]
  | kill =>
      cases started with
      | false =>
          simp only [Monitored.apply, Monitored.kill, Process.status, Status.Forward,
            Monitored.Lifecycle]
          simp
          intro hu
          exact (h1 hu).1
      | true =>
          have hu : used = true := by
            cases used with
            | true => rfl
            | false => exact absurd (h1 rfl).2 (by decide)
          subst hu
          cases state with
          | Starting => exact absurd rfl (h2 rfl)
          | Running =>
              simp [Monitored.apply, Monitored.kill, Process.status, Status.Forward,
                Monitored.Lifecycle]
          | NotRunning =>
              rcases h3 rfl rfl with h | h | h <;> subst h <;>
                simp [Monitored.apply, Monitored.kill, Process.status, Status.Forward,
                  Monitored.Lifecycle, Status.rank]
  | osFinished c x =>
      have hst : state ≠ ProcessState.NotRunning := by
        simpa [Monitored.feasible] using hf
      have hu : used = true := by
        cases used with
        | true => rfl
        | false => exact absurd (h1 rfl).1 hst
      subst hu
      cases started with
      | false =>
          simp [Monitored.apply, Monitored.osFinished, Monitored.processFinished,
            Process.status, Status.Forward, Monitored.Lifecycle]
      | true =>
          cases state with
          | NotRunning => exact absurd rfl hst
          | Starting => exact absurd rfl (h2 rfl)
          | Running =>
              by_cases hk : status = Status.Killed
              · subst hk
                simp [Monitored.apply, Monitored.osFinished, Monitored.processFinished,
                  Process.status, Status.Forward, Monitored.Lifecycle, Status.rank]
              · cases x <;>
                  simp [Monitored.apply, Monitored.osFinished, Monitored.processFinished,
                    Process.status, Status.Forward, Monitored.Lifecycle, Status.rank, hk]

/-- Along a deliverable sequence of events with at most one `start()`, every
observed value of `status()` is followed only by the same value or by values
further along the lifecycle. -/
theorem statusTrace_forward (evs : List Event) : ∀ (m : Monitored) (used : Bool),
    m.Lifecycle used → m.feasibleRun evs = true →
    startCalls evs + (if used = true then 1 else 0) ≤ 1 →
    (m.statusTrace evs).Pairwise Status.Forward ∧
    ∀ t ∈ m.statusTrace evs, Status.Forward m.status t := by
  induction evs with
  | nil =>
      intro m used _ _ _
      simp [Monitored.statusTrace, Status.Forward]
  | cons e es ih =>
      intro m used hinv hf hc
      simp only [Monitored.feasibleRun, Bool.and_eq_true] at hf
      have hs : e = Event.start → used = false := by
        intro he
        subst he
        cases used with
        | false => rfl
        | true => simp [startCalls] at hc
      obtain ⟨hfw, hinv1⟩ := lifecycle_step m used e hinv hf.1 hs
      have hc1 : startCalls es
          + (if (if e = Event.start then true else used) = true then 1 else 0) ≤ 1 := by
        by_cases he : e = Event.start
        · subst he
          simp only [startCalls] at hc
          simp only [if_true]
          omega
        · have hsame : startCalls (e :: es) = startCalls es := by
            cases e with
            | start => exact absurd rfl he
            | osStarted => rfl
            | kill => rfl
            | osFinished c x => rfl
          rw [hsame] at hc
          simpa [he] using hc
      obtain ⟨hp, hall⟩ := ih (m.apply e) _ hinv1 hf.2 hc1
      have hall1 : ∀ t ∈ (m.apply e).statusTrace es, Status.Forward m.status t :=
        fun t ht => Status.Forward.trans hfw (hall t ht)
      refine ⟨List.Pairwise.cons hall1 hp, ?_⟩
      intro t ht
      simp only [Monitored.statusTrace, List.mem_cons] at ht
      rcases ht with ht | ht
      · rw [ht]; exact Or.inl rfl
      · exact hall1 t ht

/-- A new `Monitored` process satisfies what holds of a single-use process. -/
theorem lifecycle_new (exitCode : Int) : (Monitored.new exitCode).Lifecycle false := by
  simp [Monitored.Lifecycle, Monitored.new, Process.new]

/-- A terminal value is only followed by terminal values. -/
theorem Status.Forward.terminal {a b : Status} (h : Status.Forward a b)
    (ha : a.isTerminal = true) :
    b ≠ Status.Queued ∧ b ≠ Status.Starting ∧ b ≠ Status.Running := by
  rcases h with h | h
  · subst h
    cases a <;> simp_all [Status.isTerminal]
  · cases a <;> cases b <;> simp_all [Status.isTerminal, Status.rank]

/-- A value that has been left for another one is not taken again. -/
theorem Status.Forward.no_return {a b c : Status} (h1 : Status.Forward a b)
    (h2 : Status.Forward b c) (hne : b ≠ a) : c ≠ a := by
  intro hca
  subst hca
  rcases h1 with h1 | h1
  · exact hne h1.symm
  · rcases h2 with h2 | h2
    · exact hne h2
    · exact absurd (lt_trans h1 h2) (lt_irrefl _)

/-- Claim C11: once `kill()` has been called on a `Monitored` process, for every
exit code and exit status reported afterwards the recorded status after the
exit notification is `Killed`; for a process that had been reported started
(as a running one has) `status()` then returns `Killed`. -/
theorem Monitored.kill_precedence (m : Monitored) (exitCode : Int)
    (exitStatus : ExitStatus) :
    (m.kill.osFinished exitCode exitStatus).m_status = Status.Killed ∧
    (m.m_started = true →
      (m.kill.osFinished exitCode exitStatus).status = Status.Killed) := by
  constructor
  · simp [Monitored.kill, Monitored.osFinished, Monitored.processFinished]
  · intro hs
    simp [Monitored.kill, Monitored.osFinished, Monitored.processFinished, Process.status, hs]

/-- Claim C11 at a concrete run: a process is started, reported running, killed,
and then reported as exited normally with code 0; `status()` is `Killed`. -/
theorem Monitored.kill_precedence_witness :
    (Monitored.new 0).start.osStarted.state = ProcessState.Running ∧
    ((Monitored.new 0).start.osStarted.kill.osFinished 0 ExitStatus.NormalExit).status
      = Status.Killed :=
  ⟨by decide,
   (Monitored.kill_precedence (Monitored.new 0).start.osStarted 0
      ExitStatus.NormalExit).2 (by decide)⟩

/-- Claim C12: when the recorded status is not `Killed` as the exit notification
arrives, it becomes `Crashed` for a crash exit and `Finished` otherwise; and in
every case, `Killed` included, the reported exit code is recorded. -/
theorem Monitored.processFinished_natural_exit (m : Monitored) (exitCode : Int)
    (exitStatus : ExitStatus) :
    (m.m_status ≠ Status.Killed →
      (exitStatus = ExitStatus.CrashExit →
        (m.processFinished exitCode exitStatus).m_status = Status.Crashed) ∧
      (exitStatus ≠ ExitStatus.CrashExit →
        (m.processFinished exitCode exitStatus).m_status = Status.Finished)) ∧
    (m.processFinished exitCode exitStatus).m_exitCode = exitCode := by
  refine ⟨?_, rfl⟩
  intro hk
  constructor
  · intro hc
    simp [Monitored.processFinished, hk, hc]
  · intro hc
    simp [Monitored.processFinished, hk, hc]

/-- Claim C12 at a concrete run: a running process whose program crashes with
code 11 is recorded as `Crashed` with exit code 11. -/
theorem Monitored.processFinished_natural_exit_witness :
    ((Monitored.new 0).start.osStarted.processFinished 11 ExitStatus.CrashExit).m_status
      = Status.Crashed ∧
    ((Monitored.new 0).start.osStarted.processFinished 11 ExitStatus.CrashExit).m_exitCode
      = 11 :=
  have h := Monitored.processFinished_natural_exit (Monitored.new 0).start.osStarted 11
    ExitStatus.CrashExit
  ⟨(h.1 (by decide)).1 rfl, h.2⟩

/-- Claim C15: for a new `Monitored` process and every deliverable sequence of
start, OS-started, kill and OS-exit events with at most one `start()`, the
values of `status()` observed along the sequence never move backward: after a
terminal value (`Finished`, `Crashed`, `Killed`, `Error`) no later value is
`Queued`, `Starting` or `Running`, and a value that has been left for another
one is never observed again. -/
theorem Monitored.status_never_moves_backward (exitCode : Int) (evs : List Event)
    (hfeasible : (Monitored.new exitCode).feasibleRun evs = true)
    (hsingle : startCalls evs ≤ 1) :
    (∀ (i j : Nat) (a b : Status), i < j →
      ((Monitored.new exitCode).statusTrace evs)[i]? = some a →
      ((Monitored.new exitCode).statusTrace evs)[j]? = some b →
      a.isTerminal = true →
      b ≠ Status.Queued ∧ b ≠ Status.Starting ∧ b ≠ Status.Running) ∧
    (∀ (i j k : Nat) (a b : Status), i < j → j < k →
      ((Monitored.new exitCode).statusTrace evs)[i]? = some a →
      ((Monitored.new exitCode).statusTrace evs)[j]? = some b →
      b ≠ a →
      ((Monitored.new exitCode).statusTrace evs)[k]? ≠ some a) := by
  have hp := (statusTrace_forward evs (Monitored.new exitCode) false (lifecycle_new exitCode)
    hfeasible (by simpa using hsingle)).1
  rw [List.pairwise_iff_getElem] at hp
  constructor
  · intro i j a b hij ha hb hterm
    obtain ⟨hi, rfl⟩ := List.getElem?_eq_some.mp ha
    obtain ⟨hj, rfl⟩ := List.getElem?_eq_some.mp hb
    exact Status.Forward.terminal (hp i j hi hj hij) hterm
  · intro i j k a b hij hjk ha hb hne hc
    obtain ⟨hi, rfl⟩ := List.getElem?_eq_some.mp ha
    obtain ⟨hj, rfl⟩ := List.getElem?_eq_some.mp hb
    obtain ⟨hk, hck⟩ := List.getElem?_eq_some.mp hc
    exact Status.Forward.no_return (hp i j hi hj hij) (hp j k hj hk hjk) hne hck

/-- Claim C15 at a concrete run: start, OS-started, kill, crash exit, kill.  The
values of `status()` are `Queued, Queued, Running, Running, Killed, Killed`;
`Running`, left at position 4, is not the value at position 5. -/
theorem Monitored.status_never_moves_backward_witness :
    (Monitored.new 0).statusTrace
        [Event.start, Event.osStarted, Event.kill,
         Event.osFinished 9 ExitStatus.CrashExit, Event.kill]
      = [Status.Queued, Status.Queued, Status.Running, Status.Running, Status.Killed,
         Status.Killed] ∧
    ((Monitored.new 0).statusTrace
        [Event.start, Event.osStarted, Event.kill,
         Event.osFinished 9 ExitStatus.CrashExit, Event.kill])[5]? ≠ some Status.Running :=
  ⟨by decide,
   (Monitored.status_never_moves_backward 0
      [Event.start, Event.osStarted, Event.kill,
       Event.osFinished 9 ExitStatus.CrashExit, Event.kill] (by decide) (by decide)).2
      2 4 5 Status.Running Status.Killed (by decide) (by decide) (by decide) (by decide)
      (by decide)⟩

/-! ## Elapsed time -/

/-- The three fields computed by `formattedTime()` from a snapshot of `e`
milliseconds, `0 <= e < 24 h`, are those of the specification and form a valid
`QTime`. -/
theorem QTime.toString_of_snapshot (e : Int) (h0 : 0 ≤ e) (h24 : e < 86400000) :
    QTime.toString (((e.tdiv 1000).tdiv 60).tdiv 60) (((e.tdiv 1000).tdiv 60).tmod 60)
        ((e.tdiv 1000).tmod 60)
      = twoDigits (e.toNat / 3600000) ++ ":" ++ twoDigits (e.toNat / 60000 % 60) ++ ":"
          ++ twoDigits (e.toNat / 1000 % 60) := by
  have h1 : e.tdiv 1000 = e / 1000 := Int.tdiv_eq_ediv h0 (by decide)
  have h1n : 0 ≤ e / 1000 := by omega
  have h2 : (e / 1000).tdiv 60 = e / 1000 / 60 := Int.tdiv_eq_ediv h1n (by decide)
  have h2n : 0 ≤ e / 1000 / 60 := by omega
  have h3 : (e / 1000 / 60).tdiv 60 = e / 1000 / 60 / 60 := Int.tdiv_eq_ediv h2n (by decide)
  have h4 : (e / 1000 / 60).tmod 60 = e / 1000 / 60 % 60 := Int.tmod_eq_emod h2n (by decide)
  have h5 : (e / 1000).tmod 60 = e / 1000 % 60 := Int.tmod_eq_emod h1n (by decide)
  rw [h1, h2, h3, h4, h5]
  have hv : 0 ≤ e / 1000 / 60 / 60 ∧ e / 1000 / 60 / 60 < 24 ∧ 0 ≤ e / 1000 / 60 % 60 ∧
      e / 1000 / 60 % 60 < 60 ∧ 0 ≤ e / 1000 % 60 ∧ e / 1000 % 60 < 60 := by
    refine ⟨?_, ?_, ?_, ?_, ?_, ?_⟩ <;> omega
  have e1 : (e / 1000 / 60 / 60).toNat = e.toNat / 3600000 := by omega
  have e2 : (e / 1000 / 60 % 60).toNat = e.toNat / 60000 % 60 := by omega
  have e3 : (e / 1000 % 60).toNat = e.toNat / 1000 % 60 := by omega
  rw [QTime.toString, if_pos hv, e1, e2, e3]

/-- Claim C16: for a `Timed` process that is not in the running state and whose
snapshot `m_elapsedTime` is `e` milliseconds with `0 <= e < 24 h`,
`formattedTime()` does not depend on the clock and is the format of the
specification for the day counter and `e`: the prefix `"<d> days "` exactly
when `d >= 1`, then `HH:MM:SS` on two digits each with `HH = e/3600000`,
`MM = (e/60000) mod 60`, `SS = (e/1000) mod 60`. -/
theorem Timed.formattedTime_frozen (t : Timed) (clock : Int)
    (hstate : t.state ≠ ProcessState.Running) (h0 : 0 ≤ t.m_elapsedTime)
    (h24 : t.m_elapsedTime < 86400000) :
    t.formattedTime clock = formattedTimeSpec t.m_days t.m_elapsedTime.toNat := by
  have hd : (t.m_days > 0) = (1 ≤ t.m_days) := by
    apply propext
    constructor <;> intro h <;> omega
  simp only [Timed.formattedTime, if_neg hstate, formattedTimeSpec,
    QTime.toString_of_snapshot t.m_elapsedTime h0 h24]
  simp only [hd]

/-- Claim C16 at the run of the specification: a process that ran 90061 seconds
has seen one day tick and finishes with a snapshot of 3661 s; whatever the
clock says later, it formats as `1 days 01:01:01`. -/
theorem Timed.formattedTime_frozen_witness :
    (Timed.new.anotherDay.finish 3661000).formattedTime 987654321 = "1 days 01:01:01" :=
  (Timed.formattedTime_frozen (Timed.new.anotherDay.finish 3661000) 987654321
    (by decide) (by decide) (by decide)).trans (by decide)

/-! ## Removal from the monitor -/

/-- Looking up a key after the entries of another key have been erased. -/
theorem lookup_filter_ne (key k : String) (l : List (String × Handle)) :
    (l.filter (fun e => e.1 ≠ key)).lookup k = if k = key then none else l.lookup k := by
  induction l with
  | nil => simp
  | cons e l ih =>
      obtain ⟨a, b⟩ := e
      by_cases ha : a = key
      · subst ha
        have hf : decide ((a, b).1 ≠ a) = false := by simp
        rw [List.filter_cons]
        simp only [hf, Bool.false_eq_true, if_false]
        by_cases hk : k = a
        · subst hk
          simpa using ih
        · have hb : (k == a) = false := by simpa using hk
          rw [ih]
          simp only [List.lookup_cons, hb, hk, if_false]
      · have hf : decide ((a, b).1 ≠ key) = true := by simpa using ha
        rw [List.filter_cons]
        simp only [hf, if_true]
        by_cases hk : k = a
        · subst hk
          simp [List.lookup_cons, ha]
        · have hb : (k == a) = false := by simpa using hk
          simp only [List.lookup_cons, hb]
          exact ih

/-- Claim C17: a removal request for a registered handle whose `QProcess` is
starting or running is refused: the process map is unchanged, no
`processRemoved` signal is emitted and a warning is shown. -/
theorem Monitor.remove_active_refused (mon : Monitor) (key : String) (process : Handle)
    (state : Handle → ProcessState) (hreg : mon.find key = some process)
    (hactive : state process = ProcessState.Starting ∨ state process = ProcessState.Running) :
    (mon.on_removeProcessButton_clicked (some key) state).m_processList = mon.m_processList ∧
    (mon.on_removeProcessButton_clicked (some key) state).removed = mon.removed ∧
    (mon.on_removeProcessButton_clicked (some key) state).warnings
      = mon.warnings ++ ["Cannot remove active processes from the process list."] := by
  have hne : state process ≠ ProcessState.NotRunning := by
    rcases hactive with h | h <;> rw [h] <;> decide
  simp [Monitor.on_removeProcessButton_clicked, Monitor.findSelectedProcess, hreg, hne]

/-- Claim C17 at a concrete monitor: handles 7 and 8 are registered and 7 is
running; the request to remove 7 changes neither the map nor the signals and
adds a warning. -/
theorem Monitor.remove_active_refused_witness :
    ((Monitor.new [7, 8]).on_removeProcessButton_clicked (some (keyOf 7))
        (fun p => if p = 7 then ProcessState.Running else ProcessState.NotRunning)).m_processList
      = (Monitor.new [7, 8]).m_processList ∧
    ((Monitor.new [7, 8]).on_removeProcessButton_clicked (some (keyOf 7))
        (fun p => if p = 7 then ProcessState.Running else ProcessState.NotRunning)).removed
      = [] ∧
    ((Monitor.new [7, 8]).on_removeProcessButton_clicked (some (keyOf 7))
        (fun p => if p = 7 then ProcessState.Running else ProcessState.NotRunning)).warnings
      = ["Cannot remove active processes from the process list."] :=
  Monitor.remove_active_refused (Monitor.new [7, 8]) (keyOf 7) 7
    (fun p => if p = 7 then ProcessState.Running else ProcessState.NotRunning)
    (by decide) (Or.inr (by decide))

/-- Claim C18: a removal request for a registered handle whose `QProcess` is not
running succeeds: the entry of its key is erased from the process map, the
entry of every other key is as before, exactly one `processRemoved` signal is
emitted, carrying that handle, and no warning is shown. -/
theorem Monitor.remove_idle_erases (mon : Monitor) (key : String) (process : Handle)
    (state : Handle → ProcessState) (hreg : mon.find key = some process)
    (hidle : state process = ProcessState.NotRunning) :
    (mon.on_removeProcessButton_clicked (some key) state).find key = none ∧
    (∀ k : String, k ≠ key →
      (mon.on_removeProcessButton_clicked (some key) state).find k = mon.find k) ∧
    (mon.on_removeProcessButton_clicked (some key) state).removed
      = mon.removed ++ [process] ∧
    (mon.on_removeProcessButton_clicked (some key) state).warnings = mon.warnings := by
  have hstep : mon.on_removeProcessButton_clicked (some key) state
      = Monitor.erase { mon with removed := mon.removed ++ [process] } key := by
    simp [Monitor.on_removeProcessButton_clicked, Monitor.findSelectedProcess, hreg, hidle]
  rw [hstep]
  refine ⟨?_, ?_, rfl, rfl⟩
  · show (mon.m_processList.filter (fun e => e.1 ≠ key)).lookup key = none
    rw [lookup_filter_ne, if_pos rfl]
  · intro k hk
    show (mon.m_processList.filter (fun e => e.1 ≠ key)).lookup k = mon.m_processList.lookup k
    rw [lookup_filter_ne, if_neg hk]

/-- Claim C18 at a concrete monitor: handles 7 and 8 are registered and none is
running; the request to remove 7 erases 7, keeps 8 and emits
`processRemoved(7)` once. -/
theorem Monitor.remove_idle_erases_witness :
    ((Monitor.new [7, 8]).on_removeProcessButton_clicked (some (keyOf 7))
        (fun _ => ProcessState.NotRunning)).find (keyOf 7) = none ∧
    ((Monitor.new [7, 8]).on_removeProcessButton_clicked (some (keyOf 7))
        (fun _ => ProcessState.NotRunning)).find (keyOf 8) = some 8 ∧
    ((Monitor.new [7, 8]).on_removeProcessButton_clicked (some (keyOf 7))
        (fun _ => ProcessState.NotRunning)).removed = [7] :=
  have h := Monitor.remove_idle_erases (Monitor.new [7, 8]) (keyOf 7) 7
    (fun _ => ProcessState.NotRunning) (by decide) rfl
  ⟨h.1, (h.2.1 (keyOf 8) (by decide)).trans (by decide), h.2.2.1⟩

/-! ## Errors found in the output of a job -/

/-- The index returned by `indexOf` is that of the first line with the marker. -/
theorem indexOfFatal_first (pre : List String) (line : String) (rest : List String)
    (hpre : ∀ p ∈ pre, isFatalLine p = false) (hline : isFatalLine line = true) :
    indexOfFatal (pre ++ line :: rest) = pre.length := by
  induction pre with
  | nil => simp [indexOfFatal, hline]
  | cons p pre ih =>
      have hp : isFatalLine p = false := hpre p (List.mem_cons_self _ _)
      have ih1 := ih (fun q hq => hpre q (List.mem_cons_of_mem _ hq))
      have hnn : ¬ indexOfFatal (pre ++ line :: rest) < 0 := by
        rw [ih1]
        omega
      rw [List.cons_append, indexOfFatal, hp]
      simp only [Bool.false_eq_true, if_false]
      rw [if_neg hnn, ih1]
      simp

/-- Claim C13, as stated, fails: the marker on the last line but one of the
output leaves a normally exited job `Finished`, because no line stands two
lines below the marker. -/
theorem QChem.error_precedence_counterexample :
    isFatalLine " Q-Chem fatal error occurred in module qparser" = true ∧
    (QChem.osFinished (Monitored.new 0).start.osStarted 0 ExitStatus.NormalExit
      [" Running Job 1 of 1", " Q-Chem fatal error occurred in module qparser",
       ""]).m_status = Status.Finished := by
  decide

/-- Claim C13, amended: when the first line of the output that contains the
marker is followed by at least two more lines, a job that exits with a normal
OS exit ends, after its post-processing, with recorded status `Error` (and
`status()` returns `Error` once the job had been reported started); the
recorded message is the second line after the marker. -/
theorem QChem.error_precedence (m : Monitored) (exitCode : Int) (pre : List String)
    (line x y : String) (post : List String)
    (hpre : ∀ p ∈ pre, isFatalLine p = false) (hline : isFatalLine line = true) :
    (QChem.osFinished m exitCode ExitStatus.NormalExit
        (pre ++ line :: x :: y :: post)).m_status = Status.Error ∧
    (m.m_started = true →
      (QChem.osFinished m exitCode ExitStatus.NormalExit
        (pre ++ line :: x :: y :: post)).status = Status.Error) ∧
    (QChem.osFinished m exitCode ExitStatus.NormalExit
        (pre ++ line :: x :: y :: post)).m_error = y := by
  have hidx := indexOfFatal_first pre line (x :: y :: post) hpre hline
  have hcond : 0 ≤ indexOfFatal (pre ++ line :: x :: y :: post) ∧
      ((pre ++ line :: x :: y :: post).length : Int)
        > indexOfFatal (pre ++ line :: x :: y :: post) + 2 := by
    rw [hidx]
    simp only [List.length_append, List.length_cons, Nat.cast_add, Nat.cast_one]
    omega
  have hget : (pre ++ line :: x :: y :: post).getD
      (indexOfFatal (pre ++ line :: x :: y :: post) + 2).toNat "" = y := by
    rw [hidx]
    have h2 : ((pre.length : Int) + 2).toNat = pre.length + 2 := by omega
    rw [h2, List.getD_eq_getElem?_getD, List.getElem?_append_right (by omega)]
    simp
  have hres : QChem.osFinished m exitCode ExitStatus.NormalExit
      (pre ++ line :: x :: y :: post)
      = { m.osFinished exitCode ExitStatus.NormalExit with
          m_error := y, m_status := Status.Error } := by
    simp only [QChem.osFinished, QChem.checkForErrors, if_pos hcond, hget]
  rw [hres]
  refine ⟨rfl, ?_, rfl⟩
  intro hs
  simp [Process.status, Monitored.osFinished, Monitored.processFinished, hs]

/-- Claim C13, amended, at a concrete output: the marker, an empty line and the
message; a running job that exits normally ends as `Error`. -/
theorem QChem.error_precedence_witness :
    (QChem.osFinished (Monitored.new 0).start.osStarted 0 ExitStatus.NormalExit
      [" Running Job 1 of 1", " Q-Chem fatal error occurred in module qparser", "",
       " Unrecognized basis"]).status = Status.Error :=
  (QChem.error_precedence (Monitored.new 0).start.osStarted 0 [" Running Job 1 of 1"]
    " Q-Chem fatal error occurred in module qparser" "" " Unrecognized basis" []
    (by decide) (by decide)).2.1 (by decide)

/-! ## Discovery of the engine process -/

/-- One pass over the listing keeps what the walk has established. -/
theorem scanLines_walked (lines : List (List Char)) (id0 : Int) (rest : List (List Char)) :
    ∀ id : Int, (∀ l ∈ rest, l ∈ lines) → Relation.ReflTransGen (Link lines) id0 id →
      Walked lines id0 (scanLines rest id).1 (scanLines rest id).2 := by
  induction rest with
  | nil =>
      intro id _ hid
      exact ⟨hid, fun h => by simp [scanLines] at h⟩
  | cons line rest ih =>
      intro id hsub hid
      have hmem : line ∈ lines := hsub line (List.mem_cons_self _ _)
      have hrest : ∀ l ∈ rest, l ∈ lines := fun l hl => hsub l (List.mem_cons_of_mem _ hl)
      by_cases hc : isChildLine line id = true
      · have hlink : Link lines id (pidField line) := ⟨line, hmem, hc, rfl⟩
        by_cases he : isEngineLine line = true
        · simp only [scanLines, hc, he, if_true]
          exact ⟨hid.tail hlink, fun _ => ⟨line, hmem, he, rfl, id, hid, hc⟩⟩
        · simp only [scanLines, hc, he, if_true, if_false]
          exact ih (pidField line) hrest (hid.tail hlink)
      · simp only [scanLines, hc, if_false]
        exact ih id hrest hid

/-- The passes of the `while` loop keep what the walk has established. -/
theorem pidWhile_walked (lines : List (List Char)) (id0 : Int) (fuel : Nat) :
    ∀ (found : Bool) (id : Int) (count : Nat), Walked lines id0 found id →
      Walked lines id0 (pidWhile lines fuel found id count).1
        (pidWhile lines fuel found id count).2.1 := by
  induction fuel with
  | zero => intro found id count h; exact h
  | succ fuel ih =>
      intro found id count h
      by_cases hc : found = false ∧ count < 12
      · rw [pidWhile, if_pos hc]
        exact ih _ _ _ (scanLines_walked lines id0 lines id (fun l hl => hl) h.1)
      · rw [pidWhile, if_neg hc]
        exact h

/-- The `while` loop of `QChem::pid()` leaves through its own condition: with a
bound of at least `12 - count` passes, at its exit `found` is set or `count`
has reached 12. -/
theorem pidWhile_exit (lines : List (List Char)) (fuel : Nat) :
    ∀ (found : Bool) (id : Int) (count : Nat), 12 - count ≤ fuel →
      ¬ ((pidWhile lines fuel found id count).1 = false ∧
          (pidWhile lines fuel found id count).2.2 < 12) := by
  induction fuel with
  | zero =>
      intro found id count h
      simp only [pidWhile]
      omega
  | succ fuel ih =>
      intro found id count h
      by_cases hc : found = false ∧ count < 12
      · rw [pidWhile, if_pos hc]
        exact ih _ _ _ (by omega)
      · rw [pidWhile, if_neg hc]
        exact hc

/-- The `while` loop never makes a thirteenth pass. -/
theorem pidWhile_count (lines : List (List Char)) (fuel : Nat) :
    ∀ (found : Bool) (id : Int) (count : Nat), count ≤ 12 →
      (pidWhile lines fuel found id count).2.2 ≤ 12 := by
  induction fuel with
  | zero => intro found id count h; exact h
  | succ fuel ih =>
      intro found id count h
      by_cases hc : found = false ∧ count < 12
      · rw [pidWhile, if_pos hc]
        exact ih _ _ _ (by omega)
      · rw [pidWhile, if_neg hc]
        exact h

/-- A pass over lines none of which names the engine does not set `found`. -/
theorem scanLines_no_engine (rest : List (List Char)) :
    ∀ id : Int, (∀ l ∈ rest, isEngineLine l = false) → (scanLines rest id).1 = false := by
  induction rest with
  | nil => intro id _; rfl
  | cons line rest ih =>
      intro id h
      have he : isEngineLine line = false := h line (List.mem_cons_self _ _)
      have hrest : ∀ l ∈ rest, isEngineLine l = false :=
        fun l hl => h l (List.mem_cons_of_mem _ hl)
      by_cases hc : isChildLine line id = true
      · simp only [scanLines, hc, he, if_true, Bool.false_eq_true, if_false]
        exact ih _ hrest
      · simp only [scanLines, hc, if_false]
        exact ih _ hrest

/-- Over a listing without an engine line the `while` loop ends with `found`
unset. -/
theorem pidWhile_no_engine (lines : List (List Char))
    (h : ∀ l ∈ lines, isEngineLine l = false) (fuel : Nat) :
    ∀ (id : Int) (count : Nat), (pidWhile lines fuel false id count).1 = false := by
  induction fuel with
  | zero => intro id count; rfl
  | succ fuel ih =>
      intro id count
      by_cases hc : false = false ∧ count < 12
      · rw [pidWhile, if_pos hc, scanLines_no_engine lines id h]
        exact ih _ _
      · rw [pidWhile, if_neg hc]

/-- Claim C19: for every output of the `ps` query and every immediate-child id,
whenever `QChem::pid()` returns a non-zero id, that id is the pid field of a
line of the listing that contains `qcprog.exe`; the line starts with the id of
a process reached from the immediate child by parent-to-child links of the
listing, so the returned id is a proper descendant of the immediate child. -/
theorem QChem.pid_sound (out : List Char) (id : Int)
    (hret : QChem.pid (some out) id ≠ 0) :
    (∃ line ∈ listing out, isEngineLine line = true ∧
      pidField line = QChem.pid (some out) id ∧
      ∃ parent, Relation.ReflTransGen (Link (listing out)) id parent ∧
        isChildLine line parent = true) ∧
    Relation.TransGen (Link (listing out)) id (QChem.pid (some out) id) := by
  have hfound : (QChem.pidWalk (some out) id).1 = true := by
    by_contra hn
    exact hret (by simp [QChem.pid, hn])
  have hpid : QChem.pid (some out) id = (QChem.pidWalk (some out) id).2.1 := by
    simp [QChem.pid, hfound]
  have hw := pidWhile_walked (listing out) id 12 false id 0
    ⟨Relation.ReflTransGen.refl, fun h => by simp at h⟩
  rw [hpid]
  simp only [QChem.pidWalk] at hfound ⊢
  obtain ⟨line, hmem, he, hp, parent, hreach, hc⟩ := hw.2 hfound
  exact ⟨⟨line, hmem, he, hp, parent, hreach, hc⟩,
    Relation.TransGen.tail' hreach ⟨line, hmem, hc, hp⟩⟩

/-- Claim C19 at a concrete listing: the wrapper 100 has the child 200, whose
child 300 runs `qcprog.exe`; the walk from 100 returns 300, a proper
descendant of 100. -/
theorem QChem.pid_sound_witness :
    QChem.pid (some psExample) 100 = 300 ∧
    Relation.TransGen (Link (listing psExample)) 100 (QChem.pid (some psExample) 100) :=
  ⟨by decide, (QChem.pid_sound psExample 100 (by decide)).2⟩

/-- Claim C20: for every answer of the `ps` query and every starting id the walk
of `QChem::pid()` makes at most 12 passes over the listing and then stops, with
`found` set or the twelfth pass made; `QChem::pid()` returns 0 when the query
times out, and returns 0 when no line of the listing contains `qcprog.exe`. -/
theorem QChem.pid_bounded (psOutput : Option (List Char)) (id : Int) :
    (QChem.pidWalk psOutput id).2.2 ≤ 12 ∧
    (psOutput = none → QChem.pid psOutput id = 0) ∧
    (∀ out, psOutput = some out →
      ((QChem.pidWalk psOutput id).1 = true ∨ (QChem.pidWalk psOutput id).2.2 = 12) ∧
      ((∀ line ∈ listing out, isEngineLine line = false) → QChem.pid psOutput id = 0)) := by
  refine ⟨?_, ?_, ?_⟩
  · cases psOutput with
    | none => simp [QChem.pidWalk]
    | some out => exact pidWhile_count (listing out) 12 false id 0 (by omega)
  · intro h
    subst h
    simp [QChem.pid, QChem.pidWalk]
  · intro out h
    subst h
    constructor
    · have hexit := pidWhile_exit (listing out) 12 false id 0 (by omega)
      have hle := pidWhile_count (listing out) 12 false id 0 (by omega)
      simp only [QChem.pidWalk]
      by_cases hf : (pidWhile (listing out) 12 false id 0).1 = true
      · exact Or.inl hf
      · right
        have hf1 : (pidWhile (listing out) 12 false id 0).1 = false := by simpa using hf
        have : ¬ (pidWhile (listing out) 12 false id 0).2.2 < 12 := fun hlt => hexit ⟨hf1, hlt⟩
        omega
    · intro hno
      have hf := pidWhile_no_engine (listing out) hno 12 id 0
      simp [QChem.pid, QChem.pidWalk, hf]

/-- Claim C20 at a concrete listing with a cycle: 1 is listed as the parent of 2
and 2 as the parent of 1, no line names the engine; the walk from 1 makes 12
passes and `QChem::pid()` returns 0. -/
theorem QChem.pid_bounded_witness :
    (QChem.pidWalk (some "1 2 sh\n2 1 sh".data) 1).2.2 = 12 ∧
    QChem.pid (some "1 2 sh\n2 1 sh".data) 1 = 0 :=
  ⟨by decide,
   ((QChem.pid_bounded (some "1 2 sh\n2 1 sh".data) 1).2.2 "1 2 sh\n2 1 sh".data rfl).2
     (by decide)⟩

/-! ## Removal and slot accounting -/

/-- The removal loop keeps every occurrence of the other handles. -/
theorem removeLoop_count_ne (process a : Handle) (ha : a ≠ process) (fuel : Nat) :
    ∀ (i : Nat) (q : List Handle),
      (removeLoop process fuel i q).2.count a = q.count a := by
  induction fuel with
  | zero => intro i q; simp [removeLoop]
  | succ fuel ih =>
      intro i q
      by_cases hi : i < q.length
      · cases q with
        | nil => simp at hi
        | cons p rest =>
            rw [removeLoop_pass process fuel i p rest hi, ih]
            by_cases hp : p = process
            · subst hp
              simp only [ne_eq, not_true_eq_false, if_false]
              rw [List.count_cons_of_ne ha]
            · simp only [ne_eq, hp, not_false_eq_true, if_true]
              simp [List.count_cons, List.count_append]
      · rw [removeLoop_stop process _ i q hi]

/-- Claim C27: for every queue whose pending list has no duplicate and every
handle `h`, the pending list after `remove(h)` is a permutation of the pending
list with `h` deleted; the running count, the limit and the start log are
unchanged, so no handle is started by the call. -/
theorem Queue.remove_permutes_rest (q : Queue) (h : Handle)
    (hnodup : q.m_processQueue.Nodup) :
    (q.remove h).m_processQueue.Perm (q.m_processQueue.erase h) ∧
    (q.remove h).m_nProcesses = q.m_nProcesses ∧
    (q.remove h).m_maxProcesses = q.m_maxProcesses ∧
    (q.remove h).started = q.started ∧
    (q.remove h).running = q.running := by
  refine ⟨?_, rfl, rfl, rfl, rfl⟩
  rw [List.perm_iff_count]
  intro a
  by_cases ha : a = h
  · subst ha
    have hle : q.m_processQueue.count a ≤ 1 := List.nodup_iff_count_le_one.mp hnodup a
    have hzero : (q.remove a).m_processQueue.count a = 0 := by
      rw [List.count_eq_zero]
      by_cases hmem : a ∈ q.m_processQueue
      · have hone : q.m_processQueue.count a = 1 := by
          have hpos := List.count_pos_iff.mpr hmem
          omega
        apply removeLoop_removes a _ 0 _ hone
        · simpa using List.indexOf_lt_length.mpr hmem
        · simp
      · exact fun hm => hmem (removeLoop_mem a a _ _ _ hm)
    rw [hzero, List.count_erase_self]
    omega
  · rw [List.count_erase_of_ne ha]
    exact removeLoop_count_ne h a ha _ 0 _

/-- Claim C27 at a concrete queue: limit 1, handle 0 running and 1, 2, 3
pending; removing 1 leaves a permutation of `[2, 3]`. -/
theorem Queue.remove_permutes_rest_witness :
    (((Queue.new 1).run [Op.submit 0, Op.submit 1, Op.submit 2, Op.submit 3]).remove
        1).m_processQueue.Perm [2, 3] ∧
    (((Queue.new 1).run [Op.submit 0, Op.submit 1, Op.submit 2, Op.submit 3]).remove
        1).m_nProcesses = 1 :=
  have h := Queue.remove_permutes_rest
    ((Queue.new 1).run [Op.submit 0, Op.submit 1, Op.submit 2, Op.submit 3]) 1 (by decide)
  ⟨h.1, h.2.1⟩

/-- Dispatch raises the running count by the number of handles it adds to the
running ones. -/
theorem runQueue_running_count (q : Queue) :
    q.runQueue.m_nProcesses - q.runQueue.running.length
      = q.m_nProcesses - q.running.length := by
  obtain ⟨k, hk, heq, -, -⟩ := runQueue_spec q
  rw [heq]
  simp only [List.length_append, List.length_take, Nat.cast_add]
  rw [Nat.min_eq_left hk]
  omega

/-- When every completion comes from a running handle, the running count is the
number of running handles. -/
theorem run_running_count (ops : List Op) : ∀ q : Queue,
    q.m_nProcesses = q.running.length → q.notifiedOnce ops = true →
    (q.run ops).m_nProcesses = (q.run ops).running.length := by
  induction ops with
  | nil => intro q h _; exact h
  | cons op ops ih =>
      intro q h hn
      rw [run_cons]
      cases op with
      | submit p =>
          refine ih _ ?_ (by simpa [Queue.notifiedOnce] using hn)
          have hr := runQueue_running_count { q with m_processQueue := q.m_processQueue ++ [p] }
          simp only [Queue.step, Queue.submit] at hr ⊢
          omega
      | finished s c e =>
          simp only [Queue.notifiedOnce, Bool.and_eq_true, decide_eq_true_eq] at hn
          refine ih _ ?_ hn.2
          have hr := runQueue_running_count
            { q with m_nProcesses := q.m_nProcesses - 1, running := q.running.erase s }
          have hlen := List.length_erase_of_mem hn.1
          have hpos : 0 < q.running.length := List.length_pos_of_mem hn.1
          simp only [Queue.step, Queue.processFinished] at hr ⊢
          simp only [hlen] at hr
          omega
      | remove p =>
          exact ih _ h (by simpa [Queue.notifiedOnce] using hn)

/-- Claim C28: provided every completion notification comes from a handle the
queue has started and not yet seen finish, after any sequence of calls from the
empty queue the running count is the number of handles started minus the
number of completion notifications received, and it is not negative. -/
theorem Queue.slot_accounting_exact (maxProcesses : Int) (ops : List Op)
    (honce : (Queue.new maxProcesses).notifiedOnce ops = true) :
    ((Queue.new maxProcesses).run ops).m_nProcesses
      = (((Queue.new maxProcesses).run ops).started.length : Int) - (completions ops : Int) ∧
    0 ≤ ((Queue.new maxProcesses).run ops).m_nProcesses := by
  have hc := run_count ops (Queue.new maxProcesses)
  have hr := run_running_count ops (Queue.new maxProcesses) rfl honce
  simp only [Queue.new, List.length_nil, Nat.cast_zero, sub_zero, zero_sub] at hc
  constructor
  · simp only [Queue.new]
    omega
  · rw [hr]
    exact Int.natCast_nonneg _

/-- Claim C28 at a concrete run: limit 2, three submissions and the completions
of the two handles started first; three starts, two completions, one running. -/
theorem Queue.slot_accounting_exact_witness :
    ((Queue.new 2).run [Op.submit 1, Op.submit 2, Op.submit 3,
        Op.finished 2 0 ExitStatus.NormalExit, Op.finished 1 1 ExitStatus.CrashExit]).started
      = [1, 2, 3] ∧
    ((Queue.new 2).run [Op.submit 1, Op.submit 2, Op.submit 3,
        Op.finished 2 0 ExitStatus.NormalExit,
        Op.finished 1 1 ExitStatus.CrashExit]).m_nProcesses = 1 :=
  ⟨by decide,
   (Queue.slot_accounting_exact 2 [Op.submit 1, Op.submit 2, Op.submit 3,
      Op.finished 2 0 ExitStatus.NormalExit, Op.finished 1 1 ExitStatus.CrashExit]
      (by decide)).1.trans (by decide)⟩

/-! ## The recorded error message -/

/-- With at least two lines after the first line that contains the marker,
`checkForErrors()` records the second of them and the status `Error`. -/
theorem checkForErrors_found (m : Monitored) (pre : List String) (line x y : String)
    (post : List String) (hpre : ∀ p ∈ pre, isFatalLine p = false)
    (hline : isFatalLine line = true) :
    QChem.checkForErrors m (pre ++ line :: x :: y :: post)
      = { m with m_error := y, m_status := Status.Error } := by
  have hidx := indexOfFatal_first pre line (x :: y :: post) hpre hline
  have hcond : 0 ≤ indexOfFatal (pre ++ line :: x :: y :: post) ∧
      ((pre ++ line :: x :: y :: post).length : Int)
        > indexOfFatal (pre ++ line :: x :: y :: post) + 2 := by
    rw [hidx]
    simp only [List.length_append, List.length_cons, Nat.cast_add, Nat.cast_one]
    omega
  have hget : (pre ++ line :: x :: y :: post).getD
      (indexOfFatal (pre ++ line :: x :: y :: post) + 2).toNat "" = y := by
    rw [hidx]
    have h2 : ((pre.length : Int) + 2).toNat = pre.length + 2 := by omega
    rw [h2, List.getD_eq_getElem?_getD, List.getElem?_append_right (by omega)]
    simp
  simp only [QChem.checkForErrors, if_pos hcond, hget]

/-- With fewer than two lines after the first line that contains the marker,
`checkForErrors()` changes nothing. -/
theorem checkForErrors_short (m : Monitored) (pre : List String) (line : String)
    (post : List String) (hpre : ∀ p ∈ pre, isFatalLine p = false)
    (hline : isFatalLine line = true) (hshort : post.length < 2) :
    QChem.checkForErrors m (pre ++ line :: post) = m := by
  have hidx := indexOfFatal_first pre line post hpre hline
  have hcond : ¬ (0 ≤ indexOfFatal (pre ++ line :: post) ∧
      ((pre ++ line :: post).length : Int) > indexOfFatal (pre ++ line :: post) + 2) := by
    rw [hidx]
    simp only [List.length_append, List.length_cons, Nat.cast_add, Nat.cast_one]
    omega
  simp only [QChem.checkForErrors, if_neg hcond]

/-- Claim C23, as stated, fails: with the marker on the first line, followed by
the lines `A` and `B`, the recorded message is `B`, not the line `A` that
follows the marker. -/
theorem QChem.error_message_counterexample :
    (QChem.checkForErrors (Monitored.new 0) [" Q-Chem fatal error occurred", "A", "B"]).m_error
      = "B" ∧
    (QChem.checkForErrors (Monitored.new 0) [" Q-Chem fatal error occurred", "A", "B"]).m_error
      ≠ "A" := by
  decide

/-- Claim C23, amended: when the first line of the output that contains the
marker is followed by at least two more lines, the recorded error message is
the second line after it; when fewer than two lines follow it, no message is
recorded. -/
theorem QChem.error_message_second_line (m : Monitored) (pre : List String)
    (line : String) (hpre : ∀ p ∈ pre, isFatalLine p = false)
    (hline : isFatalLine line = true) :
    (∀ (x y : String) (post : List String),
      (QChem.checkForErrors m (pre ++ line :: x :: y :: post)).m_error = y) ∧
    (∀ post : List String, post.length < 2 →
      (QChem.checkForErrors m (pre ++ line :: post)).m_error = m.m_error) := by
  constructor
  · intro x y post
    rw [checkForErrors_found m pre line x y post hpre hline]
  · intro post hshort
    rw [checkForErrors_short m pre line post hpre hline hshort]

/-- Claim C23, amended, at a concrete output: the marker, an empty line and the
message, which is the one recorded. -/
theorem QChem.error_message_second_line_witness :
    (QChem.checkForErrors (Monitored.new 0)
      [" Running Job 1 of 1", " Q-Chem fatal error occurred in module qparser", "",
       " Unrecognized basis", " bye"]).m_error = " Unrecognized basis" :=
  (QChem.error_message_second_line (Monitored.new 0) [" Running Job 1 of 1"]
    " Q-Chem fatal error occurred in module qparser" (by decide) (by decide)).1
    "" " Unrecognized basis" [" bye"]

/-! ## The ancestry climb of getpids -/

/-- What the loop of `main` keeps: the family tree is a chain of ancestors, and
the loop leaves with 0 only at an ancestor that is not listed; as long as it
has not left, every pass has added an entry. -/
theorem climb_spec (table : Nat → GetPIDs.Query) (fuel : Nat) :
    ∀ (pid : Nat) (childTime : Int) (tree : List Nat) (c : Nat),
      tree.getLast? = some c → table c = GetPIDs.Query.found pid childTime →
      tree.Chain' (GetPIDs.Ancestor table) →
      (GetPIDs.climb table fuel pid childTime tree).familyTree.Chain'
          (GetPIDs.Ancestor table) ∧
      ((GetPIDs.climb table fuel pid childTime tree).rc = some 0 →
        ∃ a, (GetPIDs.climb table fuel pid childTime tree).familyTree.getLast? = some a ∧
          GetPIDs.StoppedAt table a) ∧
      ((GetPIDs.climb table fuel pid childTime tree).rc = none →
        (GetPIDs.climb table fuel pid childTime tree).familyTree.length
          = tree.length + fuel) := by
  induction fuel with
  | zero =>
      intro pid childTime tree c _ _ hch
      exact ⟨hch, fun h => by simp [GetPIDs.climb] at h, fun _ => rfl⟩
  | succ fuel ih =>
      intro pid childTime tree c hlast hc hch
      cases hq : table pid with
      | missing =>
          simp only [GetPIDs.climb, hq]
          exact ⟨hch, fun _ => ⟨c, hlast, pid, childTime, hc, Or.inl hq⟩,
            fun h => by simp at h⟩
      | failed =>
          simp only [GetPIDs.climb, hq]
          exact ⟨hch, fun h => by simp at h, fun h => by simp at h⟩
      | found ppid createTime =>
          by_cases hlt : childTime < createTime
          · simp only [GetPIDs.climb, hq, if_pos hlt]
            exact ⟨hch, fun _ => ⟨c, hlast, pid, childTime, hc,
              Or.inr ⟨ppid, createTime, hq, hlt⟩⟩, fun h => by simp at h⟩
          · simp only [GetPIDs.climb, hq, if_neg hlt]
            have hstep : GetPIDs.Ancestor table c pid :=
              ⟨childTime, ppid, createTime, hc, hq, not_lt.mp hlt⟩
            have hch1 : (tree ++ [pid]).Chain' (GetPIDs.Ancestor table) := by
              rw [List.chain'_append]
              refine ⟨hch, List.chain'_singleton pid, ?_⟩
              intro x hx y hy
              rw [hlast] at hx
              simp only [Option.mem_def, Option.some.injEq] at hx
              simp only [List.head?_cons, Option.mem_def, Option.some.injEq] at hy
              subst hx hy
              exact hstep
            obtain ⟨h1, h2, h3⟩ := ih ppid createTime (tree ++ [pid]) pid (by simp) hq hch1
            refine ⟨h1, h2, ?_⟩
            intro hn
            rw [h3 hn]
            simp
            omega

/-- Once the loop of `main` has left, more passes change nothing. -/
theorem climb_stable (table : Nat → GetPIDs.Query) (fuel : Nat) :
    ∀ (more pid : Nat) (childTime : Int) (tree : List Nat),
      (GetPIDs.climb table fuel pid childTime tree).rc ≠ none →
      GetPIDs.climb table (fuel + more) pid childTime tree
        = GetPIDs.climb table fuel pid childTime tree := by
  induction fuel with
  | zero =>
      intro more pid childTime tree h
      simp [GetPIDs.climb] at h
  | succ fuel ih =>
      intro more pid childTime tree h
      have hf : fuel + 1 + more = (fuel + more) + 1 := by omega
      rw [hf]
      cases hq : table pid with
      | missing => simp only [GetPIDs.climb, hq]
      | failed => simp only [GetPIDs.climb, hq]
      | found ppid createTime =>
          by_cases hlt : childTime < createTime
          · simp only [GetPIDs.climb, hq, if_pos hlt]
          · simp only [GetPIDs.climb, hq, if_neg hlt] at h ⊢
            exact ih more ppid createTime (tree ++ [pid]) h

/-- Claim C25: for every process table, whatever the number of passes made, the
family tree built by `main` is a chain in which every entry after the first is
the parent pid reported for the previous one, exists and was not created later
than it; when `main` returns 0 the climb has stopped at the first ancestor that
does not exist any more or was created after its child, which is not listed;
as long as `main` has not returned every pass has listed one more ancestor,
and once it has returned more passes change nothing. -/
theorem GetPIDs.climb_lists_true_ancestors (table : Nat → GetPIDs.Query)
    (fuel current queryPid : Nat) :
    (GetPIDs.main table fuel current queryPid).familyTree.Chain'
        (GetPIDs.Ancestor table) ∧
    ((GetPIDs.main table fuel current queryPid).rc = some 0 →
      ∃ a, (GetPIDs.main table fuel current queryPid).familyTree.getLast? = some a ∧
        GetPIDs.StoppedAt table a) ∧
    ((GetPIDs.main table fuel current queryPid).rc = none →
      (GetPIDs.main table fuel current queryPid).familyTree.length = fuel + 1) ∧
    ((GetPIDs.main table fuel current queryPid).rc ≠ none →
      ∀ more : Nat, GetPIDs.main table (fuel + more) current queryPid
        = GetPIDs.main table fuel current queryPid) := by
  cases hq : table (if queryPid = 0 then current else queryPid) with
  | missing => simp [GetPIDs.main, hq]
  | failed => simp [GetPIDs.main, hq]
  | found ppid createTime =>
      simp only [GetPIDs.main, hq]
      obtain ⟨h1, h2, h3⟩ := climb_spec table fuel ppid createTime
        [if queryPid = 0 then current else queryPid]
        (if queryPid = 0 then current else queryPid) rfl hq (List.chain'_singleton _)
      refine ⟨h1, h2, ?_, ?_⟩
      · intro hn
        rw [h3 hn]
        simp
        omega
      · intro hn more
        exact climb_stable table fuel more ppid createTime _ hn

/-- Claim C25 at a concrete table: from 30 the climb lists 30, 20 and 10 and
returns 0 at the reused parent pid 7, in 3 passes as in any greater number. -/
theorem GetPIDs.climb_lists_true_ancestors_witness :
    GetPIDs.main GetPIDs.tableExample 3 1 30 = { familyTree := [30, 20, 10], rc := some 0 } ∧
    GetPIDs.main GetPIDs.tableExample (3 + 1000) 1 30
      = GetPIDs.main GetPIDs.tableExample 3 1 30 ∧
    ∃ a, (GetPIDs.main GetPIDs.tableExample 3 1 30).familyTree.getLast? = some a ∧
      GetPIDs.StoppedAt GetPIDs.tableExample a :=
  ⟨by decide,
   (GetPIDs.climb_lists_true_ancestors GetPIDs.tableExample 3 1 30).2.2.2 (by decide) 1000,
   (GetPIDs.climb_lists_true_ancestors GetPIDs.tableExample 3 1 30).2.1 (by decide)⟩

/-! ## Completeness of the discovery on a simple chain -/

/-- A chain has at least one link. -/
theorem Leads.pos {lines : List (List Char)} {pk a : Int} {n : Nat}
    (h : Leads lines pk a n) : 1 ≤ n := by
  cases h with
  | last => exact le_refl 1
  | step a b n _ _ _ => omega

/-- On a simple chain one pass ends at the engine with `found` set, or further
down the chain with `found` unset; it moves down when a line of the current
process is among the lines scanned. -/
theorem scanLines_leads (lines : List (List Char)) (pk : Int) (rest : List (List Char)) :
    ∀ (a : Int) (n : Nat), (∀ l ∈ rest, l ∈ lines) → Leads lines pk a n →
      ((scanLines rest a).1 = true ∧ (scanLines rest a).2 = pk) ∨
      ((scanLines rest a).1 = false ∧ ∃ m, m ≤ n ∧ Leads lines pk (scanLines rest a).2 m ∧
        ((∃ l ∈ rest, isChildLine l a = true) → m < n)) := by
  induction rest with
  | nil =>
      intro a n _ h
      exact Or.inr ⟨rfl, n, le_refl n, h, fun ⟨l, hl, _⟩ => by simp at hl⟩
  | cons line rest ih =>
      intro a n hsub h
      have hmem : line ∈ lines := hsub line (List.mem_cons_self _ _)
      have hrest : ∀ l ∈ rest, l ∈ lines := fun l hl => hsub l (List.mem_cons_of_mem _ hl)
      by_cases hc : isChildLine line a = true
      · cases h with
        | last _ _ hall =>
            obtain ⟨hp, he⟩ := hall line hmem hc
            left
            have hres : scanLines (line :: rest) a = (true, pidField line) := by
              simp only [scanLines, hc, he, if_true]
            rw [hres]
            exact ⟨rfl, hp⟩
        | step _ b n _ hall hnext =>
            obtain ⟨hp, he⟩ := hall line hmem hc
            have hres : scanLines (line :: rest) a = scanLines rest b := by
              simp only [scanLines, hc, he, if_true, Bool.false_eq_true, if_false, hp]
            rw [hres]
            rcases ih b n hrest hnext with hfound | ⟨hnf, m, hm, hl, _⟩
            · exact Or.inl hfound
            · exact Or.inr ⟨hnf, m, by omega, hl, fun _ => by omega⟩
      · have hres : scanLines (line :: rest) a = scanLines rest a := by
          simp [scanLines, hc]
        rw [hres]
        rcases ih a n hrest h with hfound | ⟨hnf, m, hm, hl, hprog⟩
        · exact Or.inl hfound
        · refine Or.inr ⟨hnf, m, hm, hl, ?_⟩
          rintro ⟨l, hl1, hl2⟩
          apply hprog
          rcases List.mem_cons.mp hl1 with h1 | h1
          · subst h1; exact absurd hl2 hc
          · exact ⟨l, h1, hl2⟩

/-- The process a chain starts from has a line in the listing. -/
theorem Leads.has_line {lines : List (List Char)} {pk a : Int} {n : Nat}
    (h : Leads lines pk a n) : ∃ l ∈ lines, isChildLine l a = true := by
  cases h with
  | last _ hex _ => exact hex
  | step _ _ _ hex _ _ => exact hex

/-- With `found` set the `while` loop makes no pass. -/
theorem pidWhile_found (lines : List (List Char)) (fuel : Nat) (id : Int) (count : Nat) :
    pidWhile lines fuel true id count = (true, id, count) := by
  cases fuel with
  | zero => rfl
  | succ fuel => simp [pidWhile]

/-- On a simple chain of `n` links the `while` loop finds the engine when it may
still make `n` passes. -/
theorem pidWhile_leads (lines : List (List Char)) (pk : Int) (fuel : Nat) :
    ∀ (a : Int) (n count : Nat), Leads lines pk a n → n ≤ fuel → n + count ≤ 12 →
      (pidWhile lines fuel false a count).1 = true ∧
      (pidWhile lines fuel false a count).2.1 = pk := by
  induction fuel with
  | zero =>
      intro a n count h hn _
      have := h.pos
      omega
  | succ fuel ih =>
      intro a n count h hn hc
      have hpos := h.pos
      have hcond : false = false ∧ count < 12 := ⟨rfl, by omega⟩
      rw [pidWhile, if_pos hcond]
      rcases scanLines_leads lines pk lines a n (fun l hl => hl) h with
        ⟨hf, hid⟩ | ⟨hnf, m, hm, hl, hprog⟩
      · rw [hf, hid, pidWhile_found]
        exact ⟨rfl, rfl⟩
      · rw [hnf]
        have hlt := hprog h.has_line
        exact ih _ m (count + 1) hl (by omega) (by omega)

/-- Claim C26: if the listing holds a simple chain of `k` links, `k` at most 12,
from the immediate child `c0` down to `pk`, in which every process before `pk`
is the ppid of lines that all lead to the next one, no line before the last
link contains `qcprog.exe` and the line of `pk` does, then `QChem::pid()`
returns `pk`, whatever the order of the lines. -/
theorem QChem.pid_complete (out : List Char) (c0 pk : Int) (k : Nat) (hk : k ≤ 12)
    (hchain : Leads (listing out) pk c0 k) :
    QChem.pid (some out) c0 = pk := by
  obtain ⟨hf, hid⟩ := pidWhile_leads (listing out) pk 12 c0 k 0 hchain hk (by omega)
  simp only [QChem.pid, QChem.pidWalk, hf, hid, if_true]

/-- Claim C26 at a concrete listing: the chain 100, 200, 300 of `psExample` with
its lines in another order, the engine line first; the walk from 100 still
returns 300. -/
theorem QChem.pid_complete_witness :
    QChem.pid (some psShuffled) 100 = 300 :=
  QChem.pid_complete psShuffled 100 300 2 (by decide)
    (Leads.step 100 200 1 (by decide) (by decide)
      (Leads.last 200 (by decide) (by decide)))

/-! ## Index safety of the listing parser -/

/-- What `dropWhile` leaves starts with a character that fails the test. -/
theorem dropWhile_head (p : Char → Bool) (l : List Char) :
    l.dropWhile p = [] ∨ ∃ c t, l.dropWhile p = c :: t ∧ p c = false := by
  induction l with
  | nil => exact Or.inl rfl
  | cons c l ih =>
      by_cases hc : p c = true
      · simpa [List.dropWhile_cons, hc] using ih
      · exact Or.inr ⟨c, l, by simp [List.dropWhile_cons, hc], by simpa using hc⟩

/-- A trimmed text is empty or ends with a character that is not white space. -/
theorem trimmed_last (s : List Char) :
    trimmed s = [] ∨ ∃ init c, trimmed s = init ++ [c] ∧ isSpace c = false := by
  rcases dropWhile_head isSpace (s.dropWhile isSpace).reverse with h | ⟨c, t, h, hc⟩
  · left
    simp [trimmed, h]
  · right
    exact ⟨t.reverse, c, by simp [trimmed, h], hc⟩

/-- A trimmed text is empty or starts with a character that is not white space. -/
theorem trimmed_first (s : List Char) :
    trimmed s = [] ∨ ∃ c t, trimmed s = c :: t ∧ isSpace c = false := by
  rcases dropWhile_head isSpace s with h | ⟨c, t, h, hc⟩
  · left
    simp [trimmed, h]
  · have hsuf : (s.dropWhile isSpace).reverse.dropWhile isSpace
        <:+ (s.dropWhile isSpace).reverse := List.dropWhile_suffix _
    have hpre : trimmed s <+: s.dropWhile isSpace := by
      have := List.reverse_prefix.mpr hsuf
      simpa [trimmed] using this
    rw [h] at hpre
    cases hts : trimmed s with
    | nil => exact Or.inl rfl
    | cons d u =>
        right
        rw [hts] at hpre
        obtain ⟨w, hw⟩ := hpre
        simp only [List.cons_append, List.cons.injEq] at hw
        exact ⟨d, u, rfl, by rw [hw.1]; exact hc⟩

/-- A text with a character that is not white space, or read after the start of
a token, has at least one token. -/
theorem splitSpaces_one (l : List Char) :
    ∀ cur : List Char, (cur ≠ [] ∨ ∃ c ∈ l, isSpace c = false) →
      1 ≤ (splitSpaces l cur).length := by
  induction l with
  | nil =>
      intro cur h
      have hcur : cur ≠ [] := by
        rcases h with h | ⟨c, hc, _⟩
        · exact h
        · simp at hc
      simp [splitSpaces, hcur]
  | cons c cs ih =>
      intro cur h
      by_cases hs : isSpace c = true
      · by_cases hcur : cur = []
        · subst hcur
          have hex : ∃ d ∈ cs, isSpace d = false := by
            rcases h with h | ⟨d, hd, hdn⟩
            · exact absurd rfl h
            · rcases List.mem_cons.mp hd with h1 | h1
              · subst h1; rw [hs] at hdn; exact absurd hdn (by decide)
              · exact ⟨d, h1, hdn⟩
          simpa [splitSpaces, hs] using ih [] (Or.inr hex)
        · simp [splitSpaces, hs, hcur]
      · have hs1 : isSpace c = false := by simpa using hs
        simpa [splitSpaces, hs1] using ih (c :: cur) (Or.inl (by simp))

/-- A text with a white space character between two characters that are not
white space has at least two tokens. -/
theorem splitSpaces_two (a : List Char) (sp : Char) (b : List Char)
    (hsp : isSpace sp = true) (hb : ∃ c ∈ b, isSpace c = false) :
    ∀ cur : List Char, (cur ≠ [] ∨ ∃ c ∈ a, isSpace c = false) →
      2 ≤ (splitSpaces (a ++ sp :: b) cur).length := by
  induction a with
  | nil =>
      intro cur h
      have hcur : cur ≠ [] := by
        rcases h with h | ⟨c, hc, _⟩
        · exact h
        · simp at hc
      have h1 := splitSpaces_one b [] (Or.inr hb)
      simp only [List.nil_append, splitSpaces, hsp, if_true, hcur, List.isEmpty_iff,
        if_false, List.length_cons]
      omega
  | cons c cs ih =>
      intro cur h
      by_cases hs : isSpace c = true
      · by_cases hcur : cur = []
        · subst hcur
          have hex : ∃ d ∈ cs, isSpace d = false := by
            rcases h with h | ⟨d, hd, hdn⟩
            · exact absurd rfl h
            · rcases List.mem_cons.mp hd with h1 | h1
              · subst h1; rw [hs] at hdn; exact absurd hdn (by decide)
              · exact ⟨d, h1, hdn⟩
          simpa [splitSpaces, hs] using ih [] (Or.inr hex)
        · have h1 := splitSpaces_one (cs ++ sp :: b) []
            (Or.inr (by
              obtain ⟨d, hd, hdn⟩ := hb
              exact ⟨d, by simp [hd], hdn⟩))
          have hres : splitSpaces (c :: cs ++ sp :: b) cur
              = cur.reverse :: splitSpaces (cs ++ sp :: b) [] := by
            simp [splitSpaces, hs, hcur]
          rw [hres, List.length_cons]
          omega
      · have hs1 : isSpace c = false := by simpa using hs
        simpa [splitSpaces, hs1] using ih (c :: cur) (Or.inl (by simp))

/-- A trimmed line that starts with some text followed by a blank has at least
two tokens. -/
theorem tokens_two_of_blank (s pre rest : List Char)
    (h : trimmed s = pre ++ Char.ofNat 32 :: rest) : 2 ≤ (tokens (trimmed s)).length := by
  have hblank : isSpace (Char.ofNat 32) = true := by decide
  have hpre : ∃ c ∈ pre, isSpace c = false := by
    rcases trimmed_first s with h0 | ⟨c, t, hc, hcn⟩
    · rw [h0] at h
      simp at h
    · rw [h] at hc
      cases pre with
      | nil =>
          simp only [List.nil_append, List.cons.injEq] at hc
          rw [← hc.1, hblank] at hcn
          exact absurd hcn (by decide)
      | cons d pre =>
          simp only [List.cons_append, List.cons.injEq] at hc
          exact ⟨d, List.mem_cons_self _ _, by rw [hc.1]; exact hcn⟩
  have hrest : ∃ c ∈ rest, isSpace c = false := by
    rcases trimmed_last s with h0 | ⟨init, c, hc, hcn⟩
    · rw [h0] at h
      simp at h
    · rw [h] at hc
      rcases List.eq_nil_or_concat rest with hr | ⟨r, z, hr⟩
      · subst hr
        have hlast : [Char.ofNat 32] = [c] := List.append_inj_right' hc rfl
        simp only [List.cons.injEq, and_true] at hlast
        rw [← hlast, hblank] at hcn
        exact absurd hcn (by decide)
      · subst hr
        have hc1 : (pre ++ Char.ofNat 32 :: r) ++ [z] = init ++ [c] := by
          simpa using hc
        have hlast : [z] = [c] := List.append_inj_right' hc1 rfl
        simp only [List.cons.injEq, and_true] at hlast
        exact ⟨z, by simp, by rw [hlast]; exact hcn⟩
  rw [h]
  exact splitSpaces_two pre (Char.ofNat 32) rest hblank hrest [] (Or.inr hpre)

/-- Claim C29: for every output of `ps` and every current id, each line of the
trimmed listing that starts with the decimal id followed by a space splits
into at least two tokens, so `tokens[1]` exists when `QChem::pid()` reads it. -/
theorem QChem.tokens_index_in_bounds (out : List Char) (id : Int) (line : List Char)
    (hline : line ∈ listing out) (hchild : isChildLine line id = true) :
    2 ≤ (tokens line).length ∧ ∃ token, (tokens line)[1]? = some token := by
  obtain ⟨s, -, rfl⟩ := List.mem_map.mp hline
  have hpre : ((number id).data ++ [Char.ofNat 32]) <+: trimmed s :=
    List.isPrefixOf_iff_prefix.mp hchild
  obtain ⟨rest, hrest⟩ := hpre
  have hform : trimmed s = (number id).data ++ Char.ofNat 32 :: rest := by
    rw [← hrest]
    simp
  have h2 := tokens_two_of_blank s (number id).data rest hform
  refine ⟨h2, (tokens (trimmed s))[1], ?_⟩
  exact List.getElem?_eq_getElem h2

/-- Claim C29 at a concrete listing: the line of the child of 100 in `psExample`
has its second token. -/
theorem QChem.tokens_index_in_bounds_witness :
    2 ≤ (tokens "100   200 /bin/csh qchem in".data).length ∧
    ∃ token, (tokens "100   200 /bin/csh qchem in".data)[1]? = some token :=
  QChem.tokens_index_in_bounds psExample 100 "100   200 /bin/csh qchem in".data
    (by decide) (by decide)

/-! ## Decimal numbers as text -/

/-- The character of a decimal digit is read back as that digit. -/
theorem digitValue_digitChar (k : Nat) (hk : k < 10) :
    digitValue (Nat.digitChar k) = some k := by
  interval_cases k <;> decide

/-- A character read as a digit is no white space, no line feed and no sign. -/
theorem digit_plain (c : Char) (d : Nat) (h : digitValue c = some d) :
    isSpace c = false ∧ c ≠ Char.ofNat 10 ∧ c ≠ Char.ofNat 45 ∧ c ≠ Char.ofNat 43 := by
  have hr : 48 ≤ c.toNat ∧ c.toNat ≤ 57 := by
    by_contra hn
    simp [digitValue, hn] at h
  refine ⟨?_, ?_, ?_, ?_⟩
  · simp only [isSpace, List.contains_cons, List.contains_nil, Bool.or_false,
      Bool.or_eq_false_iff, beq_eq_false_iff_ne, ne_eq]
    refine ⟨?_, ?_, ?_, ?_, ?_, ?_, ?_, ?_, ?_, ?_, ?_, ?_, ?_, ?_, ?_, ?_, ?_, ?_, ?_, ?_,
      ?_, ?_, ?_, ?_, ?_⟩ <;> omega
  · intro hc
    rw [hc] at hr
    exact absurd hr (by decide)
  · intro hc
    rw [hc] at hr
    exact absurd hr (by decide)
  · intro hc
    rw [hc] at hr
    exact absurd hr (by decide)

/-- Reading the digits written by `Nat.toDigitsCore` in front of `ds`. -/
theorem parseDigits_toDigitsCore (fuel : Nat) :
    ∀ (n : Nat) (ds : List Char), n < fuel →
      parseDigits (Nat.toDigitsCore 10 fuel n ds) 0 = parseDigits ds n := by
  induction fuel with
  | zero => intro n ds h; omega
  | succ fuel ih =>
      intro n ds h
      have hd : digitValue (Nat.digitChar (n % 10)) = some (n % 10) :=
        digitValue_digitChar _ (Nat.mod_lt _ (by decide))
      by_cases h0 : n / 10 = 0
      · have hn : n % 10 = n := by omega
        simp only [Nat.toDigitsCore, h0, if_true, parseDigits, hd]
        rw [hn]
        simp
      · simp only [Nat.toDigitsCore, h0, if_false]
        rw [ih (n / 10) _ (by omega)]
        simp only [parseDigits, hd]
        congr 1
        omega

/-- The digits written by `Nat.toDigitsCore` are digits, in front of `ds`. -/
theorem toDigitsCore_digits (fuel : Nat) :
    ∀ (n : Nat) (ds : List Char), ∃ w, Nat.toDigitsCore 10 fuel n ds = w ++ ds ∧
      (0 < fuel → w ≠ []) ∧ ∀ c ∈ w, ∃ d, digitValue c = some d := by
  induction fuel with
  | zero =>
      intro n ds
      exact ⟨[], rfl, fun h => absurd h (by decide), fun c hc => by simp at hc⟩
  | succ fuel ih =>
      intro n ds
      have hd : digitValue (Nat.digitChar (n % 10)) = some (n % 10) :=
        digitValue_digitChar _ (Nat.mod_lt _ (by decide))
      by_cases h0 : n / 10 = 0
      · refine ⟨[Nat.digitChar (n % 10)], by simp [Nat.toDigitsCore, h0], fun _ => by simp, ?_⟩
        intro c hc
        rw [List.mem_singleton] at hc
        exact ⟨n % 10, by rw [hc]; exact hd⟩
      · obtain ⟨w, hw, -, hall⟩ := ih (n / 10) (Nat.digitChar (n % 10) :: ds)
        refine ⟨w ++ [Nat.digitChar (n % 10)], by simp [Nat.toDigitsCore, h0, hw],
          fun _ => by simp, ?_⟩
        intro c hc
        rcases List.mem_append.mp hc with h1 | h1
        · exact hall c h1
        · rw [List.mem_singleton] at h1
          exact ⟨n % 10, by rw [h1]; exact hd⟩

/-- The text of a natural number is a non-empty list of digits that reads back
as the number. -/
theorem repr_digits (n : Nat) :
    (Nat.repr n).data ≠ [] ∧ (∀ c ∈ (Nat.repr n).data, ∃ d, digitValue c = some d) ∧
    parseDigits (Nat.repr n).data 0 = some n := by
  have hdata : (Nat.repr n).data = Nat.toDigitsCore 10 (n + 1) n [] := rfl
  obtain ⟨w, hw, hne, hall⟩ := toDigitsCore_digits (n + 1) n []
  rw [hdata]
  refine ⟨?_, ?_, ?_⟩
  · rw [hw]
    simpa using hne (by omega)
  · rw [hw]
    simpa using hall
  · rw [parseDigits_toDigitsCore (n + 1) n [] (by omega)]
    rfl

/-- The text written by `QString::number` for an `int` is read back by
`toInt`, with the flag `ok` set; it is not empty and holds no white space and
no line feed. -/
theorem toInt_number (c : Int) (hlo : -2147483648 ≤ c) (hhi : c ≤ 2147483647) :
    toInt (number c).data = c ∧ toIntOk (number c).data = true ∧
    (number c).data ≠ [] ∧
    ∀ x ∈ (number c).data, isSpace x = false ∧ x ≠ Char.ofNat 10 := by
  cases c with
  | ofNat n =>
      obtain ⟨hne, hall, hparse⟩ := repr_digits n
      have hn : n ≤ 2147483647 := by
        have : (n : Int) ≤ 2147483647 := hhi
        omega
      show toInt (Nat.repr n).data = (n : Int) ∧ toIntOk (Nat.repr n).data = true ∧
        (Nat.repr n).data ≠ [] ∧ ∀ x ∈ (Nat.repr n).data, isSpace x = false ∧ x ≠ Char.ofNat 10
      refine ⟨?_, ?_, hne, ?_⟩
      · cases hdat : (Nat.repr n).data with
        | nil => exact absurd hdat hne
        | cons a as =>
            rw [hdat] at hall hparse
            obtain ⟨d, hd⟩ := hall a (List.mem_cons_self _ _)
            obtain ⟨-, -, h45, h43⟩ := digit_plain a d hd
            simp only [toInt, h45, h43, if_false, hparse, hn, if_true]
      · cases hdat : (Nat.repr n).data with
        | nil => exact absurd hdat hne
        | cons a as =>
            rw [hdat] at hall hparse
            obtain ⟨d, hd⟩ := hall a (List.mem_cons_self _ _)
            obtain ⟨-, -, h45, h43⟩ := digit_plain a d hd
            simp only [toIntOk, h45, h43, if_false, hparse, hn, decide_True]
      · intro x hx
        obtain ⟨d, hd⟩ := hall x hx
        exact ⟨(digit_plain x d hd).1, (digit_plain x d hd).2.1⟩
  | negSucc n =>
      obtain ⟨hne, hall, hparse⟩ := repr_digits (n + 1)
      have hn : n + 1 ≤ 2147483648 := by
        have hneg : -2147483648 ≤ -((n : Int) + 1) := by
          rw [← Int.negSucc_eq]
          exact hlo
        omega
      have hdata : (number (Int.negSucc n)).data = Char.ofNat 45 :: (Nat.repr (n + 1)).data := rfl
      rw [hdata]
      refine ⟨?_, ?_, by simp, ?_⟩
      · cases hdat : (Nat.repr (n + 1)).data with
        | nil => exact absurd hdat hne
        | cons a as =>
            rw [hdat] at hparse
            simp only [toInt, if_true, hparse, hn]
            rw [Int.negSucc_eq]
            push_cast
            ring
      · cases hdat : (Nat.repr (n + 1)).data with
        | nil => exact absurd hdat hne
        | cons a as =>
            rw [hdat] at hparse
            simp only [toIntOk, if_true, hparse, hn, decide_True]
      · intro x hx
        rcases List.mem_cons.mp hx with h1 | h1
        · rw [h1]
          exact ⟨by decide, by decide⟩
        · obtain ⟨d, hd⟩ := hall x h1
          exact ⟨(digit_plain x d hd).1, (digit_plain x d hd).2.1⟩

/-! ## Texts, lines and tokens -/

/-- Leading characters that pass the test are all dropped. -/
theorem dropWhile_append_all (p : Char → Bool) (l r : List Char) (h : ∀ c ∈ l, p c = true) :
    (l ++ r).dropWhile p = r.dropWhile p := by
  induction l with
  | nil => rfl
  | cons c l ih =>
      have hc : p c = true := h c (List.mem_cons_self _ _)
      rw [List.cons_append, List.dropWhile_cons, if_pos hc]
      exact ih (fun d hd => h d (List.mem_cons_of_mem _ hd))

/-- A text that starts and ends with characters that are not white space is
what `trimmed()` returns for it, also with white space appended. -/
theorem trimmed_of_plain (x ws : List Char)
    (hfirst : ∃ a t, x = a :: t ∧ isSpace a = false)
    (hlast : ∃ init z, x = init ++ [z] ∧ isSpace z = false)
    (hws : ∀ c ∈ ws, isSpace c = true) : trimmed (x ++ ws) = x := by
  obtain ⟨a, t, hx, ha⟩ := hfirst
  have h1 : (x ++ ws).dropWhile isSpace = x ++ ws := by
    rw [hx, List.cons_append, List.dropWhile_cons, if_neg (by simp [ha])]
  obtain ⟨init, z, hx2, hz⟩ := hlast
  have h2 : (x ++ ws).reverse.dropWhile isSpace = x.reverse := by
    rw [List.reverse_append, dropWhile_append_all isSpace ws.reverse x.reverse
      (fun c hc => hws c (List.mem_reverse.mp hc))]
    rw [hx2, List.reverse_append, List.reverse_singleton, List.singleton_append,
      List.dropWhile_cons, if_neg (by simp [hz])]
  rw [trimmed, h1, h2, List.reverse_reverse]

/-- A text without line feed is a single line. -/
theorem splitLines_plain (l : List Char) (h : ∀ c ∈ l, c ≠ Char.ofNat 10) :
    splitLines l = [l] := by
  induction l with
  | nil => rfl
  | cons c l ih =>
      have hc : c ≠ Char.ofNat 10 := h c (List.mem_cons_self _ _)
      rw [splitLines, if_neg hc, ih (fun d hd => h d (List.mem_cons_of_mem _ hd))]

/-- The first line of a text ends at its first line feed. -/
theorem splitLines_first (l r : List Char) (h : ∀ c ∈ l, c ≠ Char.ofNat 10) :
    splitLines (l ++ Char.ofNat 10 :: r) = l :: splitLines r := by
  induction l with
  | nil => simp [splitLines]
  | cons c l ih =>
      have hc : c ≠ Char.ofNat 10 := h c (List.mem_cons_self _ _)
      rw [List.cons_append, splitLines, if_neg hc,
        ih (fun d hd => h d (List.mem_cons_of_mem _ hd))]

/-- A text has at least one line. -/
theorem splitLines_ne_nil (r : List Char) : splitLines r ≠ [] := by
  cases r with
  | nil => simp [splitLines]
  | cons c r =>
      by_cases hc : c = Char.ofNat 10
      · simp [splitLines, hc]
      · rw [splitLines, if_neg hc]
        cases splitLines r <;> simp

/-- Joining the lines of a text with line feeds gives the text back. -/
theorem joinLines_splitLines (r : List Char) : joinLines (splitLines r) = r := by
  induction r with
  | nil => rfl
  | cons c r ih =>
      by_cases hc : c = Char.ofNat 10
      · subst hc
        rw [splitLines, if_pos rfl]
        cases hs : splitLines r with
        | nil => exact absurd hs (splitLines_ne_nil r)
        | cons l ls =>
            rw [hs] at ih
            simp only [joinLines, List.nil_append, List.cons.injEq, true_and]
            exact ih
      · rw [splitLines, if_neg hc]
        cases hs : splitLines r with
        | nil => exact absurd hs (splitLines_ne_nil r)
        | cons l ls =>
            rw [hs] at ih
            cases ls with
            | nil =>
                simp only [joinLines] at ih ⊢
                rw [ih]
            | cons m ls =>
                simp only [joinLines, List.cons_append] at ih ⊢
                rw [ih]

/-- Characters that are not white space are added to the token being read. -/
theorem splitSpaces_word (w : List Char) (h : ∀ c ∈ w, isSpace c = false) :
    ∀ (rest cur : List Char),
      splitSpaces (w ++ rest) cur = splitSpaces rest (w.reverse ++ cur) := by
  induction w with
  | nil => intro rest cur; rfl
  | cons c w ih =>
      intro rest cur
      have hc : isSpace c = false := h c (List.mem_cons_self _ _)
      rw [List.cons_append, splitSpaces]
      simp only [hc, Bool.false_eq_true, if_false]
      rw [ih (fun d hd => h d (List.mem_cons_of_mem _ hd))]
      simp

/-- Two words separated by a blank are the two tokens of their line. -/
theorem tokens_pair (u v : List Char) (hu : u ≠ []) (hv : v ≠ [])
    (hus : ∀ c ∈ u, isSpace c = false) (hvs : ∀ c ∈ v, isSpace c = false) :
    tokens (u ++ Char.ofNat 32 :: v) = [u, v] := by
  have hblank : isSpace (Char.ofNat 32) = true := by decide
  have h1 := splitSpaces_word u hus (Char.ofNat 32 :: v) []
  have h2 := splitSpaces_word v hvs [] []
  simp only [List.append_nil] at h1 h2
  have hue : u.reverse.isEmpty = false := by
    cases u with
    | nil => exact absurd rfl hu
    | cons a u => simp
  have hve : v.reverse.isEmpty = false := by
    cases v with
    | nil => exact absurd rfl hv
    | cons a v => simp
  rw [tokens, h1, splitSpaces]
  simp only [hblank, if_true, hue, Bool.false_eq_true, if_false, List.reverse_reverse]
  rw [h2, splitSpaces]
  simp only [hve, Bool.false_eq_true, if_false, List.reverse_reverse]

/-! ## Round trip of the molecule section -/

/-- Reading a first line `charge multiplicity` followed by the lines of the
coordinates. -/
theorem read_of_lines (sec : MoleculeSection) (input u v : List Char)
    (lines : List (List Char))
    (hsplit : splitLines (trimmed input) = (u ++ Char.ofNat 32 :: v) :: lines)
    (htok : tokens (u ++ Char.ofNat 32 :: v) = [u, v]) :
    MoleculeSection.read sec input
      = (MoleculeSection.setCoordinates
          { sec with m_charge := toInt u, m_multiplicity := toInt v } (joinLines lines),
         toIntOk u && toIntOk v) := by
  simp only [MoleculeSection.read, hsplit, htok]

/-- Claim C30: for every charge `c` and multiplicity `m` in the range of `int`
and every coordinate text that is trimmed and different from `read`,
`MoleculeSection::read` applied to what `dump()` writes between the lines
`$molecule` and `$end` restores the charge, the multiplicity and the
coordinates, without a parse error, whatever the section held before. -/
theorem MoleculeSection.read_dump_round_trip (sec : MoleculeSection) (c m atoms : Int)
    (coords : List Char) (hclo : -2147483648 ≤ c) (hchi : c ≤ 2147483647)
    (hmlo : -2147483648 ≤ m) (hmhi : m ≤ 2147483647)
    (htrim : trimmed coords = coords) (hread : coords ≠ "read".data) :
    (MoleculeSection.read sec (MoleculeSection.dumpBody
        { m_charge := c, m_multiplicity := m, m_numberOfAtoms := atoms,
          m_coordinates := coords })).1.m_charge = c ∧
    (MoleculeSection.read sec (MoleculeSection.dumpBody
        { m_charge := c, m_multiplicity := m, m_numberOfAtoms := atoms,
          m_coordinates := coords })).1.m_multiplicity = m ∧
    (MoleculeSection.read sec (MoleculeSection.dumpBody
        { m_charge := c, m_multiplicity := m, m_numberOfAtoms := atoms,
          m_coordinates := coords })).1.m_coordinates = coords ∧
    (MoleculeSection.read sec (MoleculeSection.dumpBody
        { m_charge := c, m_multiplicity := m, m_numberOfAtoms := atoms,
          m_coordinates := coords })).2 = true := by
  obtain ⟨hci, hco, hcne, hcall⟩ := toInt_number c hclo hchi
  obtain ⟨hmi, hmo, hmne, hmall⟩ := toInt_number m hmlo hmhi
  have hblank : isSpace (Char.ofNat 32) = true := by decide
  have hfeed : isSpace (Char.ofNat 10) = true := by decide
  have htok := tokens_pair (number c).data (number m).data hcne hmne
    (fun x hx => (hcall x hx).1) (fun x hx => (hmall x hx).1)
  have hnofeed : ∀ x ∈ (number c).data ++ Char.ofNat 32 :: (number m).data,
      x ≠ Char.ofNat 10 := by
    intro x hx
    rcases List.mem_append.mp hx with h1 | h1
    · exact (hcall x h1).2
    · rcases List.mem_cons.mp h1 with h2 | h2
      · rw [h2]; decide
      · exact (hmall x h2).2
  have hfirst : ∀ rest : List Char, ∃ a t,
      ((number c).data ++ Char.ofNat 32 :: (number m).data) ++ rest = a :: t ∧
        isSpace a = false := by
    intro rest
    cases hd : (number c).data with
    | nil => exact absurd hd hcne
    | cons a t =>
        refine ⟨a, _, rfl, ?_⟩
        exact (hcall a (by rw [hd]; exact List.mem_cons_self _ _)).1
  have hresult : ∀ lines : List (List Char),
      splitLines (trimmed (MoleculeSection.dumpBody
        { m_charge := c, m_multiplicity := m, m_numberOfAtoms := atoms,
          m_coordinates := coords }))
        = ((number c).data ++ Char.ofNat 32 :: (number m).data) :: lines →
      joinLines lines = coords →
      MoleculeSection.read sec (MoleculeSection.dumpBody
        { m_charge := c, m_multiplicity := m, m_numberOfAtoms := atoms,
          m_coordinates := coords })
        = ({ m_charge := c, m_multiplicity := m,
             m_numberOfAtoms :=
               if coords = "read".data then 0
               else ((coords.count (Char.ofNat 10) : Nat) : Int) + 1,
             m_coordinates := coords }, true) := by
    intro lines hsplit hjoin
    rw [read_of_lines sec _ _ _ lines hsplit htok, hjoin, hci, hmi, hco, hmo]
    simp only [MoleculeSection.setCoordinates, MoleculeSection.parseCoordinates, htrim,
      Bool.and_self]
  by_cases hempty : coords = []
  · subst hempty
    have hbody : MoleculeSection.dumpBody
        { m_charge := c, m_multiplicity := m, m_numberOfAtoms := atoms, m_coordinates := [] }
        = ((number c).data ++ Char.ofNat 32 :: (number m).data) ++ [Char.ofNat 10] := by
      simp [MoleculeSection.dumpBody]
    have hlast : ∃ init z,
        (number c).data ++ Char.ofNat 32 :: (number m).data = init ++ [z] ∧
          isSpace z = false := by
      rcases List.eq_nil_or_concat (number m).data with hn | ⟨init, z, hz⟩
      · exact absurd hn hmne
      · refine ⟨(number c).data ++ Char.ofNat 32 :: init, z, by rw [hz]; simp, ?_⟩
        exact (hmall z (by rw [hz]; simp)).1
    have htr := trimmed_of_plain _ [Char.ofNat 10]
      (by simpa using hfirst []) hlast
      (fun x hx => by rw [List.mem_singleton.mp hx]; exact hfeed)
    have hsplit := splitLines_plain _ hnofeed
    have hres := hresult [] (by rw [hbody, htr, hsplit]) rfl
    rw [hres]
    exact ⟨rfl, rfl, rfl, rfl⟩
  · have hbody : MoleculeSection.dumpBody
        { m_charge := c, m_multiplicity := m, m_numberOfAtoms := atoms,
          m_coordinates := coords }
        = (((number c).data ++ Char.ofNat 32 :: (number m).data)
            ++ Char.ofNat 10 :: coords) ++ [Char.ofNat 10] := by
      simp [MoleculeSection.dumpBody, hread, hempty]
    have hlast : ∃ init z,
        ((number c).data ++ Char.ofNat 32 :: (number m).data) ++ Char.ofNat 10 :: coords
          = init ++ [z] ∧ isSpace z = false := by
      rcases trimmed_last coords with h0 | ⟨init, z, hz, hzn⟩
      · rw [htrim] at h0
        exact absurd h0 hempty
      · rw [htrim] at hz
        refine ⟨((number c).data ++ Char.ofNat 32 :: (number m).data)
          ++ Char.ofNat 10 :: init, z, by rw [hz]; simp, hzn⟩
    have htr := trimmed_of_plain _ [Char.ofNat 10]
      (hfirst (Char.ofNat 10 :: coords)) hlast
      (fun x hx => by rw [List.mem_singleton.mp hx]; exact hfeed)
    have hsplit := splitLines_first _ coords hnofeed
    have hres := hresult (splitLines coords) (by rw [hbody, htr, hsplit])
      (joinLines_splitLines coords)
    rw [hres]
    exact ⟨rfl, rfl, rfl, rfl⟩

/-- Claim C30 at a concrete section: charge -1, multiplicity 2 and three lines
of coordinates are written as the body `-1 2`, then the three lines, and come
back from it. -/
theorem MoleculeSection.read_dump_round_trip_witness :
    MoleculeSection.dumpBody
        { m_charge := -1, m_multiplicity := 2, m_numberOfAtoms := 3,
          m_coordinates := "O 0 0 0\nH 0 0 1\nH 0 1 0".data }
      = "-1 2\nO 0 0 0\nH 0 0 1\nH 0 1 0\n".data ∧
    (MoleculeSection.read
        { m_charge := 0, m_multiplicity := 1, m_numberOfAtoms := 0, m_coordinates := [] }
        (MoleculeSection.dumpBody
          { m_charge := -1, m_multiplicity := 2, m_numberOfAtoms := 3,
            m_coordinates := "O 0 0 0\nH 0 0 1\nH 0 1 0".data })).1.m_charge = -1 ∧
    (MoleculeSection.read
        { m_charge := 0, m_multiplicity := 1, m_numberOfAtoms := 0, m_coordinates := [] }
        (MoleculeSection.dumpBody
          { m_charge := -1, m_multiplicity := 2, m_numberOfAtoms := 3,
            m_coordinates := "O 0 0 0\nH 0 0 1\nH 0 1 0".data })).1.m_coordinates
      = "O 0 0 0\nH 0 0 1\nH 0 1 0".data :=
  ⟨by decide,
   (MoleculeSection.read_dump_round_trip
      { m_charge := 0, m_multiplicity := 1, m_numberOfAtoms := 0, m_coordinates := [] }
      (-1) 2 3 "O 0 0 0\nH 0 0 1\nH 0 1 0".data (by decide) (by decide) (by decide)
      (by decide) (by decide) (by decide)).1,
   (MoleculeSection.read_dump_round_trip
      { m_charge := 0, m_multiplicity := 1, m_numberOfAtoms := 0, m_coordinates := [] }
      (-1) 2 3 "O 0 0 0\nH 0 0 1\nH 0 1 0".data (by decide) (by decide) (by decide)
      (by decide) (by decide) (by decide)).2.2.1⟩

/-! ## The stop button and a process that is not running -/

/-- A click on the stop button with the row of a registered process selected
whose `QProcess` is not idle runs `Monitored::kill()` on it. -/
theorem stop_kills_active (mon : Monitor) (key : String) (processes : Handle → Monitored)
    (h : Handle) (hreg : mon.find key = some h)
    (hact : (processes h).state ≠ ProcessState.NotRunning) :
    mon.on_stopProcessButton_clicked (some key) processes h = (processes h).kill := by
  simp [Monitor.on_stopProcessButton_clicked, Monitor.findSelectedProcess, hreg, hact]

/-- Claim C14, as stated, fails: `Monitored::kill()` assigns `Status::Killed`
without looking at the state of the process.  A process that ran and exited
normally is not running and reports `Finished`; after `kill()` its recorded
status and `status()` are `Killed`. -/
theorem Monitored.kill_idle_counterexample :
    ((Monitored.new 0).start.osStarted.osFinished 0 ExitStatus.NormalExit).state
      = ProcessState.NotRunning ∧
    ((Monitored.new 0).start.osStarted.osFinished 0 ExitStatus.NormalExit).status
      = Status.Finished ∧
    ((Monitored.new 0).start.osStarted.osFinished 0 ExitStatus.NormalExit).kill.m_status
      = Status.Killed ∧
    ((Monitored.new 0).start.osStarted.osFinished 0 ExitStatus.NormalExit).kill.status
      = Status.Killed := by
  decide

/-- Claim C14, amended: the stop action of the monitor is a no-op when no OS
process is running.  Whatever row is selected, a click on the stop button does
not call `kill()` on a process whose `QProcess` state is `NotRunning`: the
process is left as it is, and so are its recorded status and the value of
`status()`. -/
theorem Monitor.stop_leaves_idle (mon : Monitor) (selected : Option String)
    (processes : Handle → Monitored) (h : Handle)
    (hidle : (processes h).state = ProcessState.NotRunning) :
    mon.on_stopProcessButton_clicked selected processes h = processes h ∧
    (mon.on_stopProcessButton_clicked selected processes h).m_status
      = (processes h).m_status ∧
    (mon.on_stopProcessButton_clicked selected processes h).status
      = (processes h).status := by
  have heq : mon.on_stopProcessButton_clicked selected processes h = processes h := by
    unfold Monitor.on_stopProcessButton_clicked
    cases mon.findSelectedProcess selected with
    | none => rfl
    | some e =>
        obtain ⟨key, process⟩ := e
        by_cases hs : (processes process).state ≠ ProcessState.NotRunning
        · simp only [if_pos hs]
          by_cases hp : h = process
          · subst hp
            exact absurd hidle hs
          · simp only [if_neg hp]
        · simp only [if_neg hs]
  rw [heq]
  exact ⟨rfl, rfl, rfl⟩

/-- Claim C14, amended, at a concrete monitor: the process 7 is registered, has
run and has exited normally; with its row selected, a click on the stop button
leaves it `Finished`. -/
theorem Monitor.stop_leaves_idle_witness :
    (Monitor.new [7]).find (keyOf 7) = some 7 ∧
    ((Monitor.new [7]).on_stopProcessButton_clicked (some (keyOf 7))
      (fun _ => (Monitored.new 0).start.osStarted.osFinished 0 ExitStatus.NormalExit)
      7).status = Status.Finished :=
  ⟨by decide,
   (Monitor.stop_leaves_idle (Monitor.new [7]) (some (keyOf 7))
      (fun _ => (Monitored.new 0).start.osStarted.osFinished 0 ExitStatus.NormalExit)
      7 (by decide)).2.2.trans (by decide)⟩

/-! ## Killing a job -/

/-- Without a line that contains the marker, `indexOf` returns -1. -/
theorem indexOfFatal_none (lines : List String)
    (hclean : ∀ l ∈ lines, isFatalLine l = false) : indexOfFatal lines = -1 := by
  induction lines with
  | nil => rfl
  | cons l lines ih =>
      have hl : isFatalLine l = false := hclean l (List.mem_cons_self _ _)
      have ih1 := ih (fun q hq => hclean q (List.mem_cons_of_mem _ hq))
      simp [indexOfFatal, hl, ih1]

/-- Without a line that contains the marker, `checkForErrors()` changes
nothing. -/
theorem checkForErrors_clean (m : Monitored) (lines : List String)
    (hclean : ∀ l ∈ lines, isFatalLine l = false) :
    QChem.checkForErrors m lines = m := by
  have hidx := indexOfFatal_none lines hclean
  have hcond : ¬ (0 ≤ indexOfFatal lines ∧
      (lines.length : Int) > indexOfFatal lines + 2) := by
    rw [hidx]
    omega
  simp only [QChem.checkForErrors, if_neg hcond]

/-- The exit notification of `Monitored` leaves the recorded status of a killed
process as it is. -/
theorem osFinished_after_kill (m : Monitored) (exitCode : Int) (exitStatus : ExitStatus) :
    (m.kill.osFinished exitCode exitStatus).m_status = Status.Killed := by
  simp [Monitored.osFinished, Monitored.processFinished, Monitored.kill]

/-- Claim C21, as stated, fails: a running job is killed and recorded `Killed`
at once; its output holds the fatal-error marker followed by two lines, and
after the exit notification and the post-processing the recorded status is
`Error`, not `Killed`. -/
theorem QChem.killed_job_counterexample :
    (Monitored.new 0).start.osStarted.status = Status.Running ∧
    (Monitored.new 0).start.osStarted.kill.m_status = Status.Killed ∧
    (QChem.osFinished (Monitored.new 0).start.osStarted.kill 9 ExitStatus.CrashExit
      [" Q-Chem fatal error occurred in module qparser", "",
       " Unrecognized basis"]).m_status = Status.Error ∧
    (QChem.osFinished (Monitored.new 0).start.osStarted.kill 9 ExitStatus.CrashExit
      [" Q-Chem fatal error occurred in module qparser", "",
       " Unrecognized basis"]).status = Status.Error := by
  decide

/-- Claim C21, amended: `kill()` on a job, which runs `Monitored::kill()`,
records `Killed` at once, whatever the status was, and leaves the state of the
`QProcess` to the operating system; after the exit notification and the
post-processing the recorded status of a killed job is `Killed` when no line of
the output contains the marker or fewer than two lines follow the first such
line, and it is `Error` when at least two lines follow it. -/
theorem QChem.killed_job_final_status (m : Monitored) (exitCode : Int)
    (exitStatus : ExitStatus) :
    m.kill.m_status = Status.Killed ∧ m.kill.state = m.state ∧
    (∀ lines : List String, (∀ l ∈ lines, isFatalLine l = false) →
      (QChem.osFinished m.kill exitCode exitStatus lines).m_status = Status.Killed) ∧
    (∀ (pre : List String) (line : String) (post : List String),
      (∀ p ∈ pre, isFatalLine p = false) → isFatalLine line = true → post.length < 2 →
      (QChem.osFinished m.kill exitCode exitStatus (pre ++ line :: post)).m_status
        = Status.Killed) ∧
    (∀ (pre : List String) (line x y : String) (post : List String),
      (∀ p ∈ pre, isFatalLine p = false) → isFatalLine line = true →
      (QChem.osFinished m.kill exitCode exitStatus (pre ++ line :: x :: y :: post)).m_status
        = Status.Error) := by
  refine ⟨rfl, rfl, ?_, ?_, ?_⟩
  · intro lines hclean
    rw [QChem.osFinished, checkForErrors_clean _ lines hclean]
    exact osFinished_after_kill m exitCode exitStatus
  · intro pre line post hpre hline hshort
    rw [QChem.osFinished, checkForErrors_short _ pre line post hpre hline hshort]
    exact osFinished_after_kill m exitCode exitStatus
  · intro pre line x y post hpre hline
    rw [QChem.osFinished, checkForErrors_found _ pre line x y post hpre hline]

/-- Claim C21, amended, at a concrete job: a running job is killed and its
wrapper dies with signal 9; with an output that stops after two lines the
recorded status is `Killed` at once and after the post-processing. -/
theorem QChem.killed_job_final_status_witness :
    (Monitored.new 0).start.osStarted.kill.m_status = Status.Killed ∧
    (QChem.osFinished (Monitored.new 0).start.osStarted.kill 9 ExitStatus.CrashExit
      [" Running Job 1 of 1", " Welcome to Q-Chem"]).m_status = Status.Killed :=
  ⟨(QChem.killed_job_final_status (Monitored.new 0).start.osStarted 9
      ExitStatus.CrashExit).1,
   (QChem.killed_job_final_status (Monitored.new 0).start.osStarted 9
      ExitStatus.CrashExit).2.2.1 [" Running Job 1 of 1", " Welcome to Q-Chem"]
      (by decide)⟩

/-- `filePath` returns an absolute file name as it is. -/
theorem filePath_absolute (dir fileName : String)
    (habs : QDir.isAbsolutePath fileName = true) : QDir.filePath dir fileName = fileName := by
  simp [QDir.filePath, habs]

/-- A path that continues an absolute one is absolute. -/
theorem isAbsolutePath_append (path rest : String)
    (habs : QDir.isAbsolutePath path = true) : QDir.isAbsolutePath (path ++ rest) = true := by
  simp only [QDir.isAbsolutePath, decide_eq_true_eq, String.data_append] at habs ⊢
  cases hd : path.data with
  | nil => rw [hd] at habs; simp at habs
  | cons c cs =>
      rw [hd] at habs
      simpa using habs

/-- A name that ends in a text that is not empty is not empty. -/
theorem append_ne_empty (a b : String) (hb : b ≠ "") : a ++ b ≠ "" := by
  intro h
  have hd : (a ++ b).data = [] := by rw [h]
  rw [String.data_append, List.append_eq_nil] at hd
  exact hb (String.ext hd.2)

/-- For an absolute output path, when `Test.FChk` exists and no file has the new
path yet, `renameFchkFile()` renames it and records the bare new name. -/
theorem renameFchkFile_fresh (cwd : String) (files : List (List String))
    (outPath baseName aux : String) (habs : QDir.isAbsolutePath outPath = true)
    (htmp : resolve cwd (outPath ++ "/Test.FChk") ∈ files)
    (hfree : resolve cwd (QDir.filePath outPath (baseName ++ ".FChk")) ∉ files) :
    QChem.renameFchkFile cwd files outPath baseName aux
      = (resolve cwd (QDir.filePath outPath (baseName ++ ".FChk"))
          :: files.erase (resolve cwd (outPath ++ "/Test.FChk")), baseName ++ ".FChk") := by
  have hold := filePath_absolute outPath (outPath ++ "/Test.FChk")
    (isAbsolutePath_append outPath "/Test.FChk" habs)
  have h1 : outPath ++ "/Test.FChk" ≠ "" := append_ne_empty _ _ (by decide)
  have h2 : baseName ++ ".FChk" ≠ "" := append_ne_empty _ _ (by decide)
  have hno : ¬ (outPath ++ "/Test.FChk" = "" ∨ baseName ++ ".FChk" = "") := by
    rintro (h | h)
    · exact h1 h
    · exact h2 h
  have hyes : resolve cwd (outPath ++ "/Test.FChk") ∈ files ∧
      resolve cwd (QDir.filePath outPath (baseName ++ ".FChk")) ∉ files := ⟨htmp, hfree⟩
  simp only [QChem.renameFchkFile, if_pos htmp, QDir.rename, if_neg hno, hold, if_pos hyes]

/-- Without `Test.FChk`, `renameFchkFile()` changes nothing. -/
theorem renameFchkFile_absent (cwd : String) (files : List (List String))
    (outPath baseName aux : String)
    (htmp : resolve cwd (outPath ++ "/Test.FChk") ∉ files) :
    QChem.renameFchkFile cwd files outPath baseName aux = (files, aux) := by
  simp only [QChem.renameFchkFile, if_neg htmp]

/-- Claim C24, as stated, fails, in three ways.  The program runs in `/opt/qui`.
When the job `/home/u/water.out` is run again while `water.FChk` of the
previous run is still there, `Test.FChk` exists but Qt refuses to rename it
onto the existing file, and the files are unchanged.  On a first run
`Test.FChk` becomes `/home/u/water.FChk`, but what is recorded is
`water.FChk`, which is not that path and names `/opt/qui/water.FChk` for the
program.  And for the output file `jobs/water.out`, given relative to the
working directory `/home/u`, `Test.FChk` exists beside it but the directory
object looks for `jobs/jobs/Test.FChk`, and nothing is renamed. -/
theorem QChem.renameFchkFile_counterexample :
    (resolve "/opt/qui" ("/home/u" ++ "/Test.FChk")
        ∈ [["home", "u", "water.out"], ["home", "u", "water.FChk"],
            ["home", "u", "Test.FChk"]] ∧
      (QChem.renameFchkFile "/opt/qui"
          [["home", "u", "water.out"], ["home", "u", "water.FChk"],
            ["home", "u", "Test.FChk"]] "/home/u" "water" "").1
        = [["home", "u", "water.out"], ["home", "u", "water.FChk"],
            ["home", "u", "Test.FChk"]]) ∧
    ((QChem.renameFchkFile "/opt/qui"
          [["home", "u", "water.out"], ["home", "u", "Test.FChk"]] "/home/u" "water" "").1
        = [["home", "u", "water.FChk"], ["home", "u", "water.out"]] ∧
      (QChem.renameFchkFile "/opt/qui"
          [["home", "u", "water.out"], ["home", "u", "Test.FChk"]] "/home/u" "water" "").2
        = "water.FChk" ∧
      "water.FChk" ≠ QDir.filePath "/home/u" "water.FChk" ∧
      resolve "/opt/qui" "water.FChk" = ["opt", "qui", "water.FChk"]) ∧
    (resolve "/home/u" ("jobs" ++ "/Test.FChk")
        ∈ [["home", "u", "jobs", "water.out"], ["home", "u", "jobs", "Test.FChk"]] ∧
      (QChem.renameFchkFile "/home/u"
          [["home", "u", "jobs", "water.out"], ["home", "u", "jobs", "Test.FChk"]]
          "jobs" "water" "").1
        = [["home", "u", "jobs", "water.out"], ["home", "u", "jobs", "Test.FChk"]]) := by
  decide

/-- Claim C24, amended: if `Test.FChk` exists in the directory of the output
file when the job completes, the path of the output file is absolute and no
file named `<output-base-name>.FChk` exists in that directory yet, it is
renamed to `<output-base-name>.FChk` in that directory and the bare name
`<output-base-name>.FChk`, without the directory, is recorded as the auxiliary
file; if `Test.FChk` does not exist, nothing is renamed and the recorded
auxiliary file is unchanged. -/
theorem QChem.renameFchkFile_renames (cwd : String) (files : List (List String))
    (outPath baseName aux : String) :
    (QDir.isAbsolutePath outPath = true →
      resolve cwd (outPath ++ "/Test.FChk") ∈ files →
      resolve cwd (QDir.filePath outPath (baseName ++ ".FChk")) ∉ files →
      (QChem.renameFchkFile cwd files outPath baseName aux).1
          = resolve cwd (QDir.filePath outPath (baseName ++ ".FChk"))
              :: files.erase (resolve cwd (outPath ++ "/Test.FChk")) ∧
      (QChem.renameFchkFile cwd files outPath baseName aux).2 = baseName ++ ".FChk") ∧
    (resolve cwd (outPath ++ "/Test.FChk") ∉ files →
      (QChem.renameFchkFile cwd files outPath baseName aux).1 = files ∧
      (QChem.renameFchkFile cwd files outPath baseName aux).2 = aux) := by
  constructor
  · intro habs htmp hfree
    rw [renameFchkFile_fresh cwd files outPath baseName aux habs htmp hfree]
    exact ⟨rfl, rfl⟩
  · intro htmp
    rw [renameFchkFile_absent cwd files outPath baseName aux htmp]
    exact ⟨rfl, rfl⟩

/-- Claim C24, amended, at concrete files: the first run of the job
`/home/u/water.out` leaves `Test.FChk` beside the output, which becomes
`/home/u/water.FChk`, and `water.FChk` is recorded. -/
theorem QChem.renameFchkFile_renames_witness :
    (QChem.renameFchkFile "/opt/qui"
        [["home", "u", "water.in"], ["home", "u", "water.out"], ["home", "u", "Test.FChk"]]
        "/home/u" "water" "").1
      = [["home", "u", "water.FChk"], ["home", "u", "water.in"], ["home", "u", "water.out"]] ∧
    (QChem.renameFchkFile "/opt/qui"
        [["home", "u", "water.in"], ["home", "u", "water.out"], ["home", "u", "Test.FChk"]]
        "/home/u" "water" "").2 = "water.FChk" :=
  have h := (QChem.renameFchkFile_renames "/opt/qui"
    [["home", "u", "water.in"], ["home", "u", "water.out"], ["home", "u", "Test.FChk"]]
    "/home/u" "water" "").1 (by decide) (by decide) (by decide)
  ⟨h.1.trans (by decide), h.2⟩

end Process
end Qui
